import Mathlib

/-!
Verification of the Turkish tokenizer (`turkish_tokenizer.py`).

The tokenizer is embedded shallowly: strings are `List Char`, the three
vocabulary dictionaries are association lists, and every processing
routine threads the two accumulator lists `tokens` and `ids` explicitly,
exactly as the Python code appends to its two Python lists.

The Python code calls the Unicode predicates `str.isalnum`, `str.isupper`
and the map `str.lower`.  These are modelled by `pyIsAlnum`, `pyIsUpper`
and `pyLower`, which agree with Python on the ASCII range and on the
Turkish letters that this development uses; characters outside that range
are treated as plain (neither alphanumeric nor upper case).  One known
simplification: Python maps 'İ' to the two-codepoint string "i̇",
while `pyLower` maps it to the single character 'i'.
-/

set_option maxHeartbeats 1000000

namespace TurkishTok

/-- A vocabulary table: association list from key to id, modelling one of
the JSON dictionaries (`kokler_v05.json`, `ekler_v05.json`, `bpe_v05.json`). -/
abbrev Table := List (List Char × Nat)

/-- Dictionary lookup: models `key in table` / `table[key]` on a Python dict. -/
def lookupT : Table → List Char → Option Nat
  | [], _ => none
  | (k, v) :: rest, key => if key = k then some v else lookupT rest key

/-- The three loaded vocabulary tables (`roots`, `suffixes`, `bpe_tokens`). -/
structure Vocab where
  roots : Table
  suffixes : Table
  bpe : Table

/-- `"<space>"`, id 1. -/
def SPACE : List Char := "<space>".toList

/-- `"<newline>"`, id 2. -/
def NEWLINE : List Char := "<newline>".toList

/-- `"<tab>"`, id 3. -/
def TAB : List Char := "<tab>".toList

/-- `"<unknown>"`, id 4. -/
def UNKNOWN : List Char := "<unknown>".toList

/-- `"<uppercase>"`, id 0. -/
def UPPERCASE : List Char := "<uppercase>".toList

/-- ASCII upper-case letter, the character class `[A-Z]` of the
`re.split` pattern. -/
def isAsciiUpper (c : Char) : Bool :=
  'A' ≤ c && c ≤ 'Z'

/-- Model of Python `str.isupper` on a single character, restricted to the
ASCII range and the upper-case Turkish letters. -/
def pyIsUpper (c : Char) : Bool :=
  isAsciiUpper c || c = 'Ç' || c = 'Ğ' || c = 'İ' || c = 'Ö' || c = 'Ş' || c = 'Ü'

/-- Model of Python `str.isalnum` on a single character, restricted to the
ASCII range and the Turkish letters. -/
def pyIsAlnum (c : Char) : Bool :=
  c.isAlphanum || c = 'ç' || c = 'ğ' || c = 'ı' || c = 'ö' || c = 'ş' || c = 'ü'
    || c = 'Ç' || c = 'Ğ' || c = 'İ' || c = 'Ö' || c = 'Ş' || c = 'Ü'

/-- Model of Python `str.lower` on a single character (ASCII `A`-`Z` plus
the upper-case Turkish letters; see the file comment about 'İ'). -/
def pyLower (c : Char) : Char :=
  if c = 'Ç' then 'ç'
  else if c = 'Ğ' then 'ğ'
  else if c = 'İ' then 'i'
  else if c = 'Ö' then 'ö'
  else if c = 'Ş' then 'ş'
  else if c = 'Ü' then 'ü'
  else if isAsciiUpper c then Char.ofNat (c.toNat + 32)
  else c

/-- The scanner's word class: `char.isalnum() or char in '.,!?;'`. -/
def spanPred (c : Char) : Bool :=
  pyIsAlnum c || c = '.' || c = ',' || c = '!' || c = '?' || c = ';'

/-- `for i in range(start, minLen - 1, -1): if word[:i] in tbl: return word[:i], tbl[word[:i]]`
— scan candidate prefix lengths downward from `start` to `minLen`, first
hit wins. -/
def firstHit (tbl : Table) (w : List Char) (minLen : Nat) : Nat → Option (List Char × Nat)
  | 0 => none
  | i + 1 =>
    if i + 1 < minLen then none
    else
      match lookupT tbl (w.take (i + 1)) with
      | some id => some (w.take (i + 1), id)
      | none => firstHit tbl w minLen i

/-- `match_root`: scan prefix lengths from `len(word)` down to `2`; on a hit
return the prefix, its id and the rest of the word. -/
def match_root (roots : Table) (word : List Char) : Option (List Char × Nat × List Char) :=
  match firstHit roots word 2 word.length with
  | some (t, id) => some (t, id, word.drop t.length)
  | none => none

/-- `match_suffix`: scan prefix lengths from `len(word)` down to `1`. -/
def match_suffix (suffixes : Table) (word : List Char) : Option (List Char × Nat) :=
  firstHit suffixes word 1 word.length

theorem firstHit_some {tbl : Table} {w : List Char} {minLen start : Nat}
    {t : List Char} {id : Nat} (h : firstHit tbl w minLen start = some (t, id)) :
    ∃ i, minLen ≤ i ∧ i ≤ start ∧ t = w.take i ∧ lookupT tbl (w.take i) = some id ∧
      ∀ j, i < j → j ≤ start → lookupT tbl (w.take j) = none := by
  induction start with
  | zero => simp [firstHit] at h
  | succ n ih =>
    rw [firstHit] at h
    by_cases hlt : n + 1 < minLen
    · simp [hlt] at h
    · simp only [if_neg hlt] at h
      cases hl : lookupT tbl (w.take (n + 1)) with
      | some v =>
        rw [hl] at h
        injection h with h2
        injection h2 with ha hb
        subst ha
        subst hb
        refine ⟨n + 1, Nat.le_of_not_lt hlt, Nat.le_refl _, rfl, hl, ?_⟩
        intro j hj1 hj2
        omega
      | none =>
        rw [hl] at h
        obtain ⟨i, hi1, hi2, hi3, hi4, hi5⟩ := ih h
        refine ⟨i, hi1, Nat.le_succ_of_le hi2, hi3, hi4, ?_⟩
        intro j hj1 hj2
        rcases Nat.lt_or_ge j (n + 1) with hj | hj
        · exact hi5 j hj1 (Nat.lt_succ_iff.mp hj)
        · have : j = n + 1 := Nat.le_antisymm hj2 hj
          rw [this]
          exact hl

theorem firstHit_none {tbl : Table} {w : List Char} {minLen start : Nat}
    (hm : 1 ≤ minLen) :
    firstHit tbl w minLen start = none ↔
      ∀ j, minLen ≤ j → j ≤ start → lookupT tbl (w.take j) = none := by
  induction start with
  | zero =>
    simp only [firstHit, true_iff]
    intro j hj1 hj2
    omega
  | succ n ih =>
    rw [firstHit]
    by_cases hlt : n + 1 < minLen
    · simp only [if_pos hlt, true_iff]
      intro j hj1 hj2
      omega
    · simp only [if_neg hlt]
      cases hl : lookupT tbl (w.take (n + 1)) with
      | some v =>
        refine ⟨fun hcon => Option.noConfusion hcon, fun hall => ?_⟩
        have := hall (n + 1) (Nat.le_of_not_lt hlt) (Nat.le_refl _)
        rw [this] at hl
        exact Option.noConfusion hl
      | none =>
        rw [ih]
        constructor
        · intro hall j hj1 hj2
          rcases Nat.lt_or_ge j (n + 1) with hj | hj
          · exact hall j hj1 (Nat.lt_succ_iff.mp hj)
          · have : j = n + 1 := Nat.le_antisymm hj2 hj
            rw [this]; exact hl
        · intro hall j hj1 hj2
          exact hall j hj1 (Nat.le_succ_of_le hj2)

theorem firstHit_len_bounds {tbl : Table} {w : List Char} {m : Nat}
    {t : List Char} {id : Nat} (h : firstHit tbl w m w.length = some (t, id)) :
    m ≤ t.length ∧ t.length ≤ w.length := by
  obtain ⟨i, hi1, hi2, hi3, _, _⟩ := firstHit_some h
  subst hi3
  simp only [List.length_take]
  omega

theorem firstHit_drop_lt {tbl : Table} {w : List Char} {m : Nat}
    {t : List Char} {id : Nat} (hm : 1 ≤ m)
    (h : firstHit tbl w m w.length = some (t, id)) :
    (w.drop t.length).length < w.length := by
  obtain ⟨h1, h2⟩ := firstHit_len_bounds h
  simp only [List.length_drop]
  omega

/-- The loop of `process_bpe`: while the cursor has not passed the end,
scan substring lengths downward from the rest of the word; on a hit append
the fragment and jump past it, on a miss move one character with no
emission.  The cursor position is represented by the still-unprocessed
suffix of the word, and `found` carries `found_any`. -/
def bpe_loop (bpe : Table) (w : List Char) (ts : List (List Char)) (ids : List Nat)
    (found : Bool) : (List (List Char) × List Nat) × Bool :=
  match w with
  | [] => ((ts, ids), found)
  | c :: rest =>
    match h : firstHit bpe (c :: rest) 1 (c :: rest).length with
    | some (t, id) =>
      bpe_loop bpe ((c :: rest).drop t.length) (ts ++ [t]) (ids ++ [id]) true
    | none => bpe_loop bpe rest ts ids found
termination_by w.length
decreasing_by
  · exact firstHit_drop_lt (Nat.le_refl 1) h
  · simp [Nat.lt_succ_iff]

/-- `process_bpe(word, tokens, ids)`: returns the updated lists and
`found_any`. -/
def process_bpe (V : Vocab) (word : List Char) (ts : List (List Char))
    (ids : List Nat) : (List (List Char) × List Nat) × Bool :=
  bpe_loop V.bpe word ts ids false

/-- `process_remainder(remainder, tokens, ids)`: suffix attempt, then root
attempt, then BPE, then `<unknown>`; recursing on each leftover. -/
def process_remainder (V : Vocab) (rem : List Char) (ts : List (List Char))
    (ids : List Nat) : List (List Char) × List Nat :=
  match h : match_suffix V.suffixes rem with
  | some (sfx, id) =>
    if hr : rem.drop sfx.length = [] then (ts ++ [sfx], ids ++ [id])
    else process_remainder V (rem.drop sfx.length) (ts ++ [sfx]) (ids ++ [id])
  | none =>
    match h2 : match_root V.roots rem with
    | some (root, id, rem2) =>
      if hr : rem2 = [] then (ts ++ [root], ids ++ [id])
      else process_remainder V rem2 (ts ++ [root]) (ids ++ [id])
    | none =>
      let r := process_bpe V rem ts ids
      if r.2 then r.1 else (r.1.1 ++ [UNKNOWN], r.1.2 ++ [4])
termination_by rem.length
decreasing_by
  · exact firstHit_drop_lt (Nat.le_refl 1) h
  · rw [match_root] at h2
    cases h3 : firstHit V.roots rem 2 rem.length with
    | some p =>
      rw [h3] at h2
      obtain ⟨t, id'⟩ := p
      injection h2 with h4
      injection h4 with h5 h6
      injection h6 with h7 h8
      subst h5
      subst h8
      exact firstHit_drop_lt (by omega) h3
    | none => rw [h3] at h2; exact Option.noConfusion h2

/-- `process_word(word, tokens, ids)`: root match first, else BPE, else
`<unknown>`. -/
def process_word (V : Vocab) (word : List Char) (ts : List (List Char))
    (ids : List Nat) : List (List Char) × List Nat :=
  match match_root V.roots word with
  | some (root, id, rem) =>
    if rem = [] then (ts ++ [root], ids ++ [id])
    else process_remainder V rem (ts ++ [root]) (ids ++ [id])
  | none =>
    let r := process_bpe V word ts ids
    if r.2 then r.1 else (r.1.1 ++ [UNKNOWN], r.1.2 ++ [4])

/-- Matches of the regex `[A-Z][^A-Z]*` after the leading gap: each match is
an ASCII upper-case letter followed by the run of non-upper-case characters,
and consecutive matches are separated by empty gap strings, as in the list
`re.split` returns. -/
def splitUpperAux (w : List Char) : List (List Char) :=
  match w with
  | [] => []
  | c :: rest =>
    (c :: rest.takeWhile (fun d => !(isAsciiUpper d))) :: [] ::
      splitUpperAux (rest.dropWhile (fun d => !(isAsciiUpper d)))
termination_by w.length
decreasing_by
  have h1 : (rest.dropWhile (fun d => !(isAsciiUpper d))).length ≤ rest.length :=
    (List.dropWhile_sublist _).length_le
  simp only [List.length_cons]
  omega

/-- `re.split(r'([A-Z][^A-Z]*)', word)`: the leading run of non-`[A-Z]`
characters, then the captured matches interleaved with (empty) gaps. -/
def splitUpper (w : List Char) : List (List Char) :=
  w.takeWhile (fun d => !(isAsciiUpper d)) ::
    splitUpperAux (w.dropWhile (fun d => !(isAsciiUpper d)))

/-- `for part in parts: if part: ...` — the loop over the `re.split` result:
skip empty parts; a part with an upper-case first letter gets an
`<uppercase>` marker and is lower-cased before `process_word`; any other
part is passed through unchanged. -/
def processParts (V : Vocab) : List (List Char) → List (List Char) → List Nat →
    List (List Char) × List Nat
  | [], ts, ids => (ts, ids)
  | [] :: ps, ts, ids => processParts V ps ts ids
  | (c :: cs) :: ps, ts, ids =>
    if pyIsUpper c then
      let r := process_word V ((c :: cs).map pyLower) (ts ++ [UPPERCASE]) (ids ++ [0])
      processParts V ps r.1 r.2
    else
      let r := process_word V (c :: cs) ts ids
      processParts V ps r.1 r.2

/-- Handling of one collected word inside `tokenize`: if any character is
upper case, split on `[A-Z]` and loop over the parts, else `process_word`
directly. -/
def processSpan (V : Vocab) (word : List Char) (ts : List (List Char))
    (ids : List Nat) : List (List Char) × List Nat :=
  if word.any pyIsUpper then processParts V (splitUpper word) ts ids
  else process_word V word ts ids

/-- The character loop of `tokenize`: whitespace specials, atomic spans
(maximal runs of the word class), and silent skip of anything else. -/
def scanText (V : Vocab) (text : List Char) (ts : List (List Char))
    (ids : List Nat) : List (List Char) × List Nat :=
  match text with
  | [] => (ts, ids)
  | c :: rest =>
    if c = ' ' then scanText V rest (ts ++ [SPACE]) (ids ++ [1])
    else if c = '\n' then scanText V rest (ts ++ [NEWLINE]) (ids ++ [2])
    else if c = '\t' then scanText V rest (ts ++ [TAB]) (ids ++ [3])
    else if h : spanPred c then
      let r := processSpan V ((c :: rest).takeWhile spanPred) ts ids
      scanText V ((c :: rest).dropWhile spanPred) r.1 r.2
    else scanText V rest ts ids
termination_by text.length
decreasing_by
  · simp [Nat.lt_succ_iff]
  · simp [Nat.lt_succ_iff]
  · simp [Nat.lt_succ_iff]
  · rw [List.dropWhile_cons_of_pos h]
    have h1 : (rest.dropWhile spanPred).length ≤ rest.length :=
      (List.dropWhile_sublist _).length_le
    simp only [List.length_cons]
    omega
  · simp [Nat.lt_succ_iff]

/-- `tokenize(text)`: run the scanner with fresh accumulator lists and
return the pair (the Python `{"tokens": tokens, "ids": ids}` record). -/
def tokenize (V : Vocab) (text : List Char) : List (List Char) × List Nat :=
  scanText V text [] []

/-!
### Executable mirrors

The loops above are defined by well-founded recursion, which the kernel
does not unfold, so closed instances cannot be settled by `decide`.  Each
loop therefore gets a structurally recursive mirror driven by a fuel
counter, proved equal to the loop whenever the fuel is large enough; the
mirrors exist only so that concrete runs of the tokenizer can be computed
inside proofs.
-/

/-- Fuelled mirror of `bpe_loop`. -/
def bpe_loopF (bpe : Table) : Nat → List Char → List (List Char) → List Nat → Bool →
    (List (List Char) × List Nat) × Bool
  | _, [], ts, ids, found => ((ts, ids), found)
  | 0, _ :: _, ts, ids, found => ((ts, ids), found)
  | n + 1, c :: rest, ts, ids, found =>
    match firstHit bpe (c :: rest) 1 (c :: rest).length with
    | some (t, id) => bpe_loopF bpe n ((c :: rest).drop t.length) (ts ++ [t]) (ids ++ [id]) true
    | none => bpe_loopF bpe n rest ts ids found

theorem bpe_loopF_eq (bpe : Table) :
    ∀ (n : Nat) (w : List Char) (ts : List (List Char)) (ids : List Nat) (found : Bool),
      w.length ≤ n → bpe_loopF bpe n w ts ids found = bpe_loop bpe w ts ids found := by
  intro n
  induction n with
  | zero =>
    intro w ts ids found hw
    have hnil : w = [] := List.length_eq_zero.mp (Nat.le_zero.mp hw)
    subst hnil
    rw [bpe_loop.eq_1]
    simp only [bpe_loopF]
  | succ n ih =>
    intro w ts ids found hw
    cases w with
    | nil => rw [bpe_loop.eq_1]; simp only [bpe_loopF]
    | cons c rest =>
      rw [bpe_loop.eq_2]
      split
      · rename_i t id hfh
        simp only [bpe_loopF, hfh]
        apply ih
        have hd := firstHit_drop_lt (Nat.le_refl 1) hfh
        simp only [List.length_cons] at hd hw ⊢
        omega
      · rename_i hfh
        simp only [bpe_loopF, hfh]
        apply ih
        simp only [List.length_cons] at hw
        omega

theorem match_suffix_drop_lt {S : Table} {rem sfx : List Char} {id : Nat}
    (h : match_suffix S rem = some (sfx, id)) :
    (rem.drop sfx.length).length < rem.length := by
  unfold match_suffix at h
  exact firstHit_drop_lt (Nat.le_refl 1) h

theorem match_root_some {R : Table} {word r : List Char} {id : Nat} {rem2 : List Char}
    (h : match_root R word = some (r, id, rem2)) :
    firstHit R word 2 word.length = some (r, id) ∧ rem2 = word.drop r.length := by
  unfold match_root at h
  cases hfh : firstHit R word 2 word.length with
  | some p =>
    obtain ⟨t, v⟩ := p
    rw [hfh] at h
    injection h with h1
    injection h1 with h2 h3
    injection h3 with h4 h5
    subst h2; subst h4; subst h5
    exact ⟨rfl, rfl⟩
  | none => rw [hfh] at h; exact Option.noConfusion h

theorem match_root_rem_lt {R : Table} {word r : List Char} {id : Nat} {rem2 : List Char}
    (h : match_root R word = some (r, id, rem2)) :
    rem2.length < word.length ∧ 2 ≤ r.length := by
  obtain ⟨hfh, hrem⟩ := match_root_some h
  obtain ⟨h1, h2⟩ := firstHit_len_bounds hfh
  subst hrem
  simp only [List.length_drop]
  omega

/-- Fuelled mirror of `process_remainder`. -/
def process_remainderF (V : Vocab) : Nat → List Char → List (List Char) → List Nat →
    List (List Char) × List Nat
  | 0, _, ts, ids => (ts, ids)
  | n + 1, rem, ts, ids =>
    match match_suffix V.suffixes rem with
    | some (sfx, id) =>
      if rem.drop sfx.length = [] then (ts ++ [sfx], ids ++ [id])
      else process_remainderF V n (rem.drop sfx.length) (ts ++ [sfx]) (ids ++ [id])
    | none =>
      match match_root V.roots rem with
      | some (root, id, rem2) =>
        if rem2 = [] then (ts ++ [root], ids ++ [id])
        else process_remainderF V n rem2 (ts ++ [root]) (ids ++ [id])
      | none =>
        let r := bpe_loopF V.bpe rem.length rem ts ids false
        if r.2 then r.1 else (r.1.1 ++ [UNKNOWN], r.1.2 ++ [4])

theorem process_remainderF_eq (V : Vocab) :
    ∀ (n : Nat) (rem : List Char) (ts : List (List Char)) (ids : List Nat),
      rem.length < n → process_remainderF V n rem ts ids = process_remainder V rem ts ids := by
  intro n
  induction n with
  | zero => intro rem ts ids hw; omega
  | succ n ih =>
    intro rem ts ids hw
    rw [process_remainder.eq_def]
    split
    · rename_i sfx id hs
      simp only [process_remainderF, hs]
      by_cases hr : rem.drop sfx.length = []
      · rw [if_pos hr, dif_pos hr]
      · rw [if_neg hr, dif_neg hr]
        apply ih
        have := match_suffix_drop_lt hs
        omega
    · rename_i hs
      split
      · rename_i root id rem2 hr2
        simp only [process_remainderF, hs, hr2]
        by_cases hr : rem2 = []
        · rw [if_pos hr, dif_pos hr]
        · rw [if_neg hr, dif_neg hr]
          apply ih
          have := (match_root_rem_lt hr2).1
          omega
      · rename_i hr2
        simp only [process_remainderF, hs, hr2]
        rw [show process_bpe V rem ts ids = bpe_loop V.bpe rem ts ids false from rfl]
        rw [← bpe_loopF_eq V.bpe rem.length rem ts ids false (Nat.le_refl _)]

/-- Mirror of `process_word` built on the fuelled mirrors. -/
def process_wordF (V : Vocab) (word : List Char) (ts : List (List Char))
    (ids : List Nat) : List (List Char) × List Nat :=
  match match_root V.roots word with
  | some (root, id, rem) =>
    if rem = [] then (ts ++ [root], ids ++ [id])
    else process_remainderF V (rem.length + 1) rem (ts ++ [root]) (ids ++ [id])
  | none =>
    let r := bpe_loopF V.bpe word.length word ts ids false
    if r.2 then r.1 else (r.1.1 ++ [UNKNOWN], r.1.2 ++ [4])

theorem process_wordF_eq (V : Vocab) (word : List Char) (ts : List (List Char))
    (ids : List Nat) : process_wordF V word ts ids = process_word V word ts ids := by
  cases hmr : match_root V.roots word with
  | some p =>
    obtain ⟨root, id, rem⟩ := p
    simp only [process_wordF, process_word, hmr]
    by_cases hrem : rem = []
    · rw [if_pos hrem, if_pos hrem]
    · rw [if_neg hrem, if_neg hrem]
      exact process_remainderF_eq V (rem.length + 1) rem _ _ (Nat.lt_succ_self _)
  | none =>
    simp only [process_wordF, process_word, hmr, process_bpe]
    rw [← bpe_loopF_eq V.bpe word.length word ts ids false (Nat.le_refl _)]

/-- Mirror of `processParts`. -/
def processPartsF (V : Vocab) : List (List Char) → List (List Char) → List Nat →
    List (List Char) × List Nat
  | [], ts, ids => (ts, ids)
  | [] :: ps, ts, ids => processPartsF V ps ts ids
  | (c :: cs) :: ps, ts, ids =>
    if pyIsUpper c then
      let r := process_wordF V ((c :: cs).map pyLower) (ts ++ [UPPERCASE]) (ids ++ [0])
      processPartsF V ps r.1 r.2
    else
      let r := process_wordF V (c :: cs) ts ids
      processPartsF V ps r.1 r.2

theorem processPartsF_eq (V : Vocab) :
    ∀ (ps : List (List Char)) (ts : List (List Char)) (ids : List Nat),
      processPartsF V ps ts ids = processParts V ps ts ids := by
  intro ps
  induction ps with
  | nil => intro ts ids; rfl
  | cons p ps ih =>
    intro ts ids
    cases p with
    | nil => simp only [processPartsF, processParts]; exact ih ts ids
    | cons c cs =>
      simp only [processPartsF, processParts, process_wordF_eq]
      by_cases hu : pyIsUpper c
      · rw [if_pos hu, if_pos hu]; exact ih _ _
      · rw [if_neg hu, if_neg hu]; exact ih _ _

/-- Fuelled mirror of `splitUpperAux`. -/
def splitUpperAuxF : Nat → List Char → List (List Char)
  | _, [] => []
  | 0, _ :: _ => []
  | n + 1, c :: rest =>
    (c :: rest.takeWhile (fun d => !(isAsciiUpper d))) :: [] ::
      splitUpperAuxF n (rest.dropWhile (fun d => !(isAsciiUpper d)))

theorem splitUpperAuxF_eq :
    ∀ (n : Nat) (w : List Char), w.length ≤ n → splitUpperAuxF n w = splitUpperAux w := by
  intro n
  induction n with
  | zero =>
    intro w hw
    have hnil : w = [] := List.length_eq_zero.mp (Nat.le_zero.mp hw)
    subst hnil
    rw [splitUpperAux.eq_1]
    simp only [splitUpperAuxF]
  | succ n ih =>
    intro w hw
    cases w with
    | nil => rw [splitUpperAux.eq_1]; simp only [splitUpperAuxF]
    | cons c rest =>
      rw [splitUpperAux.eq_2]
      simp only [splitUpperAuxF]
      rw [ih]
      have h1 : (rest.dropWhile (fun d => !(isAsciiUpper d))).length ≤ rest.length :=
        (List.dropWhile_sublist _).length_le
      simp only [List.length_cons] at hw
      omega

/-- Mirror of `splitUpper`. -/
def splitUpperF (w : List Char) : List (List Char) :=
  w.takeWhile (fun d => !(isAsciiUpper d)) ::
    splitUpperAuxF w.length (w.dropWhile (fun d => !(isAsciiUpper d)))

theorem splitUpperF_eq (w : List Char) : splitUpperF w = splitUpper w := by
  unfold splitUpperF splitUpper
  rw [splitUpperAuxF_eq]
  exact (List.dropWhile_sublist _).length_le

/-- Mirror of `processSpan`. -/
def processSpanF (V : Vocab) (word : List Char) (ts : List (List Char))
    (ids : List Nat) : List (List Char) × List Nat :=
  if word.any pyIsUpper then processPartsF V (splitUpperF word) ts ids
  else process_wordF V word ts ids

theorem processSpanF_eq (V : Vocab) (word : List Char) (ts : List (List Char))
    (ids : List Nat) : processSpanF V word ts ids = processSpan V word ts ids := by
  unfold processSpanF processSpan
  by_cases hu : word.any pyIsUpper
  · rw [if_pos hu, if_pos hu, splitUpperF_eq, processPartsF_eq]
  · rw [if_neg hu, if_neg hu, process_wordF_eq]

/-- Fuelled mirror of `scanText`. -/
def scanTextF (V : Vocab) : Nat → List Char → List (List Char) → List Nat →
    List (List Char) × List Nat
  | _, [], ts, ids => (ts, ids)
  | 0, _ :: _, ts, ids => (ts, ids)
  | n + 1, c :: rest, ts, ids =>
    if c = ' ' then scanTextF V n rest (ts ++ [SPACE]) (ids ++ [1])
    else if c = '\n' then scanTextF V n rest (ts ++ [NEWLINE]) (ids ++ [2])
    else if c = '\t' then scanTextF V n rest (ts ++ [TAB]) (ids ++ [3])
    else if spanPred c then
      let r := processSpanF V ((c :: rest).takeWhile spanPred) ts ids
      scanTextF V n ((c :: rest).dropWhile spanPred) r.1 r.2
    else scanTextF V n rest ts ids

theorem scanTextF_eq (V : Vocab) :
    ∀ (n : Nat) (text : List Char) (ts : List (List Char)) (ids : List Nat),
      text.length ≤ n → scanTextF V n text ts ids = scanText V text ts ids := by
  intro n
  induction n with
  | zero =>
    intro text ts ids hw
    have hnil : text = [] := List.length_eq_zero.mp (Nat.le_zero.mp hw)
    subst hnil
    rw [scanText.eq_1]
    simp only [scanTextF]
  | succ n ih =>
    intro text ts ids hw
    cases text with
    | nil => rw [scanText.eq_1]; simp only [scanTextF]
    | cons c rest =>
      rw [scanText.eq_2]
      simp only [List.length_cons] at hw
      by_cases h1 : c = ' '
      · simp only [scanTextF, if_pos h1]; exact ih _ _ _ (by omega)
      · by_cases h2 : c = '\n'
        · simp only [scanTextF, if_neg h1, if_pos h2]; exact ih _ _ _ (by omega)
        · by_cases h3 : c = '\t'
          · simp only [scanTextF, if_neg h1, if_neg h2, if_pos h3]; exact ih _ _ _ (by omega)
          · by_cases h4 : spanPred c
            · simp only [scanTextF, if_neg h1, if_neg h2, if_neg h3, if_pos h4, dif_pos h4,
                processSpanF_eq]
              apply ih
              rw [List.dropWhile_cons_of_pos h4]
              have h5 : (rest.dropWhile spanPred).length ≤ rest.length :=
                (List.dropWhile_sublist _).length_le
              omega
            · simp only [scanTextF, if_neg h1, if_neg h2, if_neg h3, if_neg h4, dif_neg h4]
              exact ih _ _ _ (by omega)

/-- Mirror of `tokenize`: fully executable. -/
def tokenizeF (V : Vocab) (text : List Char) : List (List Char) × List Nat :=
  scanTextF V text.length text [] []

theorem tokenizeF_eq (V : Vocab) (text : List Char) :
    tokenizeF V text = tokenize V text :=
  scanTextF_eq V text.length text [] [] (Nat.le_refl _)

/-!
### Step equations

One unfolding step of each loop, phrased by the result of the relevant
match attempt.
-/

theorem bpe_loop_cons_some {bpe : Table} {c : Char} {rest t : List Char} {id : Nat}
    (hfh : firstHit bpe (c :: rest) 1 (c :: rest).length = some (t, id))
    (ts : List (List Char)) (ids : List Nat) (f : Bool) :
    bpe_loop bpe (c :: rest) ts ids f =
      bpe_loop bpe ((c :: rest).drop t.length) (ts ++ [t]) (ids ++ [id]) true := by
  rw [bpe_loop.eq_2]
  split
  · rename_i t' id' heq
    rw [hfh] at heq
    injection heq with h1
    injection h1 with h2 h3
    subst h2
    subst h3
    rfl
  · rename_i heq
    rw [hfh] at heq
    exact Option.noConfusion heq

theorem bpe_loop_cons_none {bpe : Table} {c : Char} {rest : List Char}
    (hfh : firstHit bpe (c :: rest) 1 (c :: rest).length = none)
    (ts : List (List Char)) (ids : List Nat) (f : Bool) :
    bpe_loop bpe (c :: rest) ts ids f = bpe_loop bpe rest ts ids f := by
  rw [bpe_loop.eq_2]
  split
  · rename_i t' id' heq
    rw [hfh] at heq
    exact Option.noConfusion heq
  · rfl

theorem process_remainder_sfx {V : Vocab} {rem sfx : List Char} {id : Nat}
    (hs : match_suffix V.suffixes rem = some (sfx, id))
    (ts : List (List Char)) (ids : List Nat) :
    process_remainder V rem ts ids =
      if rem.drop sfx.length = [] then (ts ++ [sfx], ids ++ [id])
      else process_remainder V (rem.drop sfx.length) (ts ++ [sfx]) (ids ++ [id]) := by
  rw [process_remainder.eq_def]
  split
  · rename_i sfx' id' heq
    rw [hs] at heq
    injection heq with h1
    injection h1 with h2 h3
    subst h2
    subst h3
    by_cases hr : rem.drop sfx.length = []
    · rw [dif_pos hr, if_pos hr]
    · rw [dif_neg hr, if_neg hr]
  · rename_i heq
    rw [hs] at heq
    exact Option.noConfusion heq

theorem process_remainder_root {V : Vocab} {rem root : List Char} {id : Nat}
    {rem2 : List Char}
    (hs : match_suffix V.suffixes rem = none)
    (hr2 : match_root V.roots rem = some (root, id, rem2))
    (ts : List (List Char)) (ids : List Nat) :
    process_remainder V rem ts ids =
      if rem2 = [] then (ts ++ [root], ids ++ [id])
      else process_remainder V rem2 (ts ++ [root]) (ids ++ [id]) := by
  rw [process_remainder.eq_def]
  split
  · rename_i sfx' id' heq
    rw [hs] at heq
    exact Option.noConfusion heq
  · split
    · rename_i root' id' rem2' heq
      rw [hr2] at heq
      injection heq with h1
      injection h1 with h2 h3
      injection h3 with h4 h5
      subst h2
      subst h4
      subst h5
      by_cases hr : rem2 = []
      · rw [dif_pos hr, if_pos hr]
      · rw [dif_neg hr, if_neg hr]
    · rename_i heq
      rw [hr2] at heq
      exact Option.noConfusion heq

theorem process_remainder_bpe {V : Vocab} {rem : List Char}
    (hs : match_suffix V.suffixes rem = none)
    (hr2 : match_root V.roots rem = none)
    (ts : List (List Char)) (ids : List Nat) :
    process_remainder V rem ts ids =
      (let r := process_bpe V rem ts ids
       if r.2 then r.1 else (r.1.1 ++ [UNKNOWN], r.1.2 ++ [4])) := by
  rw [process_remainder.eq_def]
  split
  · rename_i sfx' id' heq
    rw [hs] at heq
    exact Option.noConfusion heq
  · split
    · rename_i root' id' rem2' heq
      rw [hr2] at heq
      exact Option.noConfusion heq
    · rfl

theorem scanText_cons_space (V : Vocab) (rest : List Char) (ts : List (List Char))
    (ids : List Nat) :
    scanText V (' ' :: rest) ts ids = scanText V rest (ts ++ [SPACE]) (ids ++ [1]) := by
  rw [scanText.eq_2]
  rfl

theorem scanText_cons_newline (V : Vocab) (rest : List Char) (ts : List (List Char))
    (ids : List Nat) :
    scanText V ('\n' :: rest) ts ids = scanText V rest (ts ++ [NEWLINE]) (ids ++ [2]) := by
  rw [scanText.eq_2]
  rfl

theorem scanText_cons_tab (V : Vocab) (rest : List Char) (ts : List (List Char))
    (ids : List Nat) :
    scanText V ('\t' :: rest) ts ids = scanText V rest (ts ++ [TAB]) (ids ++ [3]) := by
  rw [scanText.eq_2]
  rfl

theorem scanText_cons_span {V : Vocab} {c : Char} (hws : c ≠ ' ') (hwn : c ≠ '\n')
    (hwt : c ≠ '\t') (hsp : spanPred c = true) (rest : List Char)
    (ts : List (List Char)) (ids : List Nat) :
    scanText V (c :: rest) ts ids =
      (let r := processSpan V ((c :: rest).takeWhile spanPred) ts ids
       scanText V ((c :: rest).dropWhile spanPred) r.1 r.2) := by
  rw [scanText.eq_2]
  rw [if_neg hws, if_neg hwn, if_neg hwt, dif_pos hsp]

theorem scanText_cons_skip {V : Vocab} {c : Char} (hws : c ≠ ' ') (hwn : c ≠ '\n')
    (hwt : c ≠ '\t') (hsp : spanPred c = false) (rest : List Char)
    (ts : List (List Char)) (ids : List Nat) :
    scanText V (c :: rest) ts ids = scanText V rest ts ids := by
  rw [scanText.eq_2]
  rw [if_neg hws, if_neg hwn, if_neg hwt, dif_neg (by simp [hsp])]

/-!
### Emission views and accumulator frames

Each routine only ever appends to the accumulator lists; the frame lemmas
state this: a run from arbitrary accumulators equals the accumulators
followed by the run from empty ones.
-/

/-- The fragments that `process_bpe` emits for a word, with `found_any`. -/
def bpeEmit (V : Vocab) (w : List Char) : (List (List Char) × List Nat) × Bool :=
  process_bpe V w [] []

/-- The tokens that `process_remainder` emits for a leftover string. -/
def remEmit (V : Vocab) (rem : List Char) : List (List Char) × List Nat :=
  process_remainder V rem [] []

/-- The tokens that `process_word` emits for a word. -/
def wordEmit (V : Vocab) (w : List Char) : List (List Char) × List Nat :=
  process_word V w [] []

theorem bpe_loop_frame (bpe : Table) :
    ∀ (n : Nat) (w : List Char), w.length ≤ n →
      ∀ (ts : List (List Char)) (ids : List Nat) (f : Bool),
        bpe_loop bpe w ts ids f =
          ((ts ++ (bpe_loop bpe w [] [] false).1.1,
            ids ++ (bpe_loop bpe w [] [] false).1.2),
            f || (bpe_loop bpe w [] [] false).2) := by
  intro n
  induction n with
  | zero =>
    intro w hw ts ids f
    have hnil : w = [] := List.length_eq_zero.mp (Nat.le_zero.mp hw)
    subst hnil
    simp [bpe_loop.eq_1]
  | succ n ih =>
    intro w hw ts ids f
    cases w with
    | nil => simp [bpe_loop.eq_1]
    | cons c rest =>
      cases hfh : firstHit bpe (c :: rest) 1 (c :: rest).length with
      | some p =>
        obtain ⟨t, id⟩ := p
        have hlen : ((c :: rest).drop t.length).length ≤ n := by
          have := firstHit_drop_lt (Nat.le_refl 1) hfh
          simp only [List.length_cons] at this hw ⊢
          omega
        rw [bpe_loop_cons_some hfh, bpe_loop_cons_some hfh []]
        rw [ih _ hlen (ts ++ [t]) (ids ++ [id]) true,
          ih _ hlen ([] ++ [t]) ([] ++ [id]) true]
        simp [List.append_assoc]
      | none =>
        have hlen : rest.length ≤ n := by
          simp only [List.length_cons] at hw
          omega
        rw [bpe_loop_cons_none hfh, bpe_loop_cons_none hfh []]
        rw [ih _ hlen ts ids f]

theorem process_bpe_frame (V : Vocab) (w : List Char) (ts : List (List Char))
    (ids : List Nat) :
    process_bpe V w ts ids =
      ((ts ++ (bpeEmit V w).1.1, ids ++ (bpeEmit V w).1.2), (bpeEmit V w).2) := by
  unfold process_bpe bpeEmit
  rw [bpe_loop_frame V.bpe w.length w (Nat.le_refl _) ts ids false]
  rw [show process_bpe V w [] [] = bpe_loop V.bpe w [] [] false from rfl]
  simp

theorem process_remainder_nil (V : Vocab) (ts : List (List Char)) (ids : List Nat) :
    process_remainder V [] ts ids = (ts ++ [UNKNOWN], ids ++ [4]) := by
  have hs : match_suffix V.suffixes [] = none := rfl
  have hr2 : match_root V.roots [] = none := rfl
  rw [process_remainder_bpe hs hr2]
  simp [process_bpe, bpe_loop.eq_1]

theorem process_remainder_frame (V : Vocab) :
    ∀ (n : Nat) (rem : List Char), rem.length ≤ n →
      ∀ (ts : List (List Char)) (ids : List Nat),
        process_remainder V rem ts ids =
          (ts ++ (remEmit V rem).1, ids ++ (remEmit V rem).2) := by
  intro n
  induction n with
  | zero =>
    intro rem hw ts ids
    have hnil : rem = [] := List.length_eq_zero.mp (Nat.le_zero.mp hw)
    subst hnil
    simp only [remEmit]
    rw [process_remainder_nil, process_remainder_nil]
    simp
  | succ n ih =>
    intro rem hw ts ids
    cases hs : match_suffix V.suffixes rem with
    | some p =>
      obtain ⟨sfx, id⟩ := p
      simp only [remEmit]
      rw [process_remainder_sfx hs ts ids, process_remainder_sfx hs [] []]
      by_cases hr : rem.drop sfx.length = []
      · rw [if_pos hr, if_pos hr]
        simp
      · rw [if_neg hr, if_neg hr]
        have hlen : (rem.drop sfx.length).length ≤ n := by
          have := match_suffix_drop_lt hs
          omega
        rw [ih _ hlen (ts ++ [sfx]) (ids ++ [id]), ih _ hlen ([] ++ [sfx]) ([] ++ [id])]
        simp
    | none =>
      cases hr2 : match_root V.roots rem with
      | some p =>
        obtain ⟨root, id, rem2⟩ := p
        simp only [remEmit]
        rw [process_remainder_root hs hr2 ts ids, process_remainder_root hs hr2 [] []]
        by_cases hr : rem2 = []
        · rw [if_pos hr, if_pos hr]
          simp
        · rw [if_neg hr, if_neg hr]
          have hlen : rem2.length ≤ n := by
            have := (match_root_rem_lt hr2).1
            omega
          rw [ih _ hlen (ts ++ [root]) (ids ++ [id]), ih _ hlen ([] ++ [root]) ([] ++ [id])]
          simp
      | none =>
        simp only [remEmit]
        rw [process_remainder_bpe hs hr2 ts ids, process_remainder_bpe hs hr2 [] []]
        rw [process_bpe_frame V rem ts ids, process_bpe_frame V rem [] []]
        cases hb : (bpeEmit V rem).2 <;> simp [hb]

theorem process_word_frame (V : Vocab) (word : List Char) (ts : List (List Char))
    (ids : List Nat) :
    process_word V word ts ids = (ts ++ (wordEmit V word).1, ids ++ (wordEmit V word).2) := by
  cases hmr : match_root V.roots word with
  | some p =>
    obtain ⟨root, id, rem⟩ := p
    simp only [wordEmit, process_word, hmr]
    by_cases hr : rem = []
    · rw [if_pos hr, if_pos hr]
      simp
    · rw [if_neg hr, if_neg hr]
      rw [process_remainder_frame V rem.length rem (Nat.le_refl _) (ts ++ [root]) (ids ++ [id]),
        process_remainder_frame V rem.length rem (Nat.le_refl _) ([] ++ [root]) ([] ++ [id])]
      simp
  | none =>
    simp only [wordEmit, process_word, hmr]
    rw [process_bpe_frame V word ts ids, process_bpe_frame V word [] []]
    cases hb : (bpeEmit V word).2 <;> simp [hb]

/-- The tokens that the parts loop emits for a list of parts. -/
def partsEmit (V : Vocab) (ps : List (List Char)) : List (List Char) × List Nat :=
  processParts V ps [] []

theorem partsEmit_def (V : Vocab) (ps : List (List Char)) :
    partsEmit V ps = processParts V ps [] [] := rfl

theorem processParts_frame (V : Vocab) :
    ∀ (ps : List (List Char)) (ts : List (List Char)) (ids : List Nat),
      processParts V ps ts ids =
        (ts ++ (partsEmit V ps).1, ids ++ (partsEmit V ps).2) := by
  intro ps
  induction ps with
  | nil =>
    intro ts ids
    simp [partsEmit, processParts]
  | cons p rest ih =>
    intro ts ids
    cases p with
    | nil =>
      simp only [partsEmit, processParts]
      rw [← partsEmit_def]
      exact ih ts ids
    | cons c cs =>
      simp only [partsEmit, processParts]
      by_cases hu : pyIsUpper c
      · rw [if_pos hu, if_pos hu]
        simp [process_word_frame, ih, List.append_assoc]
      · rw [if_neg hu, if_neg hu]
        simp [process_word_frame, ih, List.append_assoc]

theorem processSpan_frame (V : Vocab) (word : List Char) (ts : List (List Char))
    (ids : List Nat) :
    processSpan V word ts ids =
      (ts ++ (processSpan V word [] []).1, ids ++ (processSpan V word [] []).2) := by
  unfold processSpan
  by_cases hu : word.any pyIsUpper
  · rw [if_pos hu, if_pos hu]
    exact processParts_frame V (splitUpper word) ts ids
  · rw [if_neg hu, if_neg hu]
    exact process_word_frame V word ts ids

theorem scanText_frame (V : Vocab) :
    ∀ (n : Nat) (text : List Char), text.length ≤ n →
      ∀ (ts : List (List Char)) (ids : List Nat),
        scanText V text ts ids =
          (ts ++ (tokenize V text).1, ids ++ (tokenize V text).2) := by
  intro n
  induction n with
  | zero =>
    intro text hw ts ids
    have hnil : text = [] := List.length_eq_zero.mp (Nat.le_zero.mp hw)
    subst hnil
    simp [tokenize, scanText.eq_1]
  | succ n ih =>
    intro text hw ts ids
    cases text with
    | nil => simp [tokenize, scanText.eq_1]
    | cons c rest =>
      simp only [List.length_cons] at hw
      by_cases h1 : c = ' '
      · subst h1
        rw [tokenize, scanText_cons_space, scanText_cons_space,
          ih rest (by omega) (ts ++ [SPACE]) (ids ++ [1]),
          ih rest (by omega) ([] ++ [SPACE]) ([] ++ [1])]
        simp [tokenize]
      · by_cases h2 : c = '\n'
        · subst h2
          rw [tokenize, scanText_cons_newline, scanText_cons_newline,
            ih rest (by omega) (ts ++ [NEWLINE]) (ids ++ [2]),
            ih rest (by omega) ([] ++ [NEWLINE]) ([] ++ [2])]
          simp [tokenize]
        · by_cases h3 : c = '\t'
          · subst h3
            rw [tokenize, scanText_cons_tab, scanText_cons_tab,
              ih rest (by omega) (ts ++ [TAB]) (ids ++ [3]),
              ih rest (by omega) ([] ++ [TAB]) ([] ++ [3])]
            simp [tokenize]
          · by_cases h4 : spanPred c
            · have hlen : ((c :: rest).dropWhile spanPred).length ≤ n := by
                rw [List.dropWhile_cons_of_pos h4]
                have h5 : (rest.dropWhile spanPred).length ≤ rest.length :=
                  (List.dropWhile_sublist _).length_le
                omega
              rw [tokenize, scanText_cons_span h1 h2 h3 h4, scanText_cons_span h1 h2 h3 h4]
              simp only []
              rw [processSpan_frame V ((c :: rest).takeWhile spanPred) ts ids]
              rw [ih _ hlen, ih _ hlen]
              simp [tokenize]
            · have h4' : spanPred c = false := by
                cases hc : spanPred c
                · rfl
                · exact absurd hc h4
              rw [tokenize, scanText_cons_skip h1 h2 h3 h4', scanText_cons_skip h1 h2 h3 h4']
              rw [ih rest (by omega) ts ids]
              simp [tokenize]

/-!
### Parallel-length, found-flag and size lemmas
-/

theorem bpe_loop_len (bpe : Table) :
    ∀ (n : Nat) (w : List Char), w.length ≤ n →
      ∀ (ts : List (List Char)) (ids : List Nat) (f : Bool), ts.length = ids.length →
        ((bpe_loop bpe w ts ids f).1.1).length = ((bpe_loop bpe w ts ids f).1.2).length := by
  intro n
  induction n with
  | zero =>
    intro w hw ts ids f hsync
    have hnil : w = [] := List.length_eq_zero.mp (Nat.le_zero.mp hw)
    subst hnil
    simpa [bpe_loop.eq_1] using hsync
  | succ n ih =>
    intro w hw ts ids f hsync
    cases w with
    | nil => simpa [bpe_loop.eq_1] using hsync
    | cons c rest =>
      cases hfh : firstHit bpe (c :: rest) 1 (c :: rest).length with
      | some p =>
        obtain ⟨t, id⟩ := p
        have hlen : ((c :: rest).drop t.length).length ≤ n := by
          have := firstHit_drop_lt (Nat.le_refl 1) hfh
          simp only [List.length_cons] at this hw ⊢
          omega
        rw [bpe_loop_cons_some hfh]
        exact ih _ hlen _ _ _ (by simp [hsync])
      | none =>
        have hlen : rest.length ≤ n := by
          simp only [List.length_cons] at hw
          omega
        rw [bpe_loop_cons_none hfh]
        exact ih _ hlen _ _ _ hsync

theorem process_remainder_len (V : Vocab) :
    ∀ (n : Nat) (rem : List Char), rem.length ≤ n →
      ∀ (ts : List (List Char)) (ids : List Nat), ts.length = ids.length →
        ((process_remainder V rem ts ids).1).length =
          ((process_remainder V rem ts ids).2).length := by
  intro n
  induction n with
  | zero =>
    intro rem hw ts ids hsync
    have hnil : rem = [] := List.length_eq_zero.mp (Nat.le_zero.mp hw)
    subst hnil
    rw [process_remainder_nil]
    simp [hsync]
  | succ n ih =>
    intro rem hw ts ids hsync
    cases hs : match_suffix V.suffixes rem with
    | some p =>
      obtain ⟨sfx, id⟩ := p
      rw [process_remainder_sfx hs]
      by_cases hr : rem.drop sfx.length = []
      · rw [if_pos hr]
        simp [hsync]
      · rw [if_neg hr]
        have hlen : (rem.drop sfx.length).length ≤ n := by
          have := match_suffix_drop_lt hs
          omega
        exact ih _ hlen _ _ (by simp [hsync])
    | none =>
      cases hr2 : match_root V.roots rem with
      | some p =>
        obtain ⟨root, id, rem2⟩ := p
        rw [process_remainder_root hs hr2]
        by_cases hr : rem2 = []
        · rw [if_pos hr]
          simp [hsync]
        · rw [if_neg hr]
          have hlen : rem2.length ≤ n := by
            have := (match_root_rem_lt hr2).1
            omega
          exact ih _ hlen _ _ (by simp [hsync])
      | none =>
        rw [process_remainder_bpe hs hr2]
        have hb := bpe_loop_len V.bpe rem.length rem (Nat.le_refl _) ts ids false hsync
        simp only [process_bpe]
        cases hfound : (bpe_loop V.bpe rem ts ids false).2
        · simp [hfound, hb]
        · simp [hfound, hb]

theorem process_word_len (V : Vocab) (word : List Char) (ts : List (List Char))
    (ids : List Nat) (hsync : ts.length = ids.length) :
    ((process_word V word ts ids).1).length = ((process_word V word ts ids).2).length := by
  cases hmr : match_root V.roots word with
  | some p =>
    obtain ⟨root, id, rem⟩ := p
    simp only [process_word, hmr]
    by_cases hr : rem = []
    · rw [if_pos hr]
      simp [hsync]
    · rw [if_neg hr]
      exact process_remainder_len V rem.length rem (Nat.le_refl _) _ _ (by simp [hsync])
  | none =>
    simp only [process_word, hmr]
    have hb := bpe_loop_len V.bpe word.length word (Nat.le_refl _) ts ids false hsync
    simp only [process_bpe]
    cases hfound : (bpe_loop V.bpe word ts ids false).2
    · simp [hfound, hb]
    · simp [hfound, hb]

theorem processParts_len (V : Vocab) :
    ∀ (ps : List (List Char)) (ts : List (List Char)) (ids : List Nat),
      ts.length = ids.length →
        ((processParts V ps ts ids).1).length = ((processParts V ps ts ids).2).length := by
  intro ps
  induction ps with
  | nil => intro ts ids hsync; simpa [processParts] using hsync
  | cons p rest ih =>
    intro ts ids hsync
    cases p with
    | nil => simp only [processParts]; exact ih ts ids hsync
    | cons c cs =>
      simp only [processParts]
      by_cases hu : pyIsUpper c
      · rw [if_pos hu]
        exact ih _ _ (process_word_len V _ _ _ (by simp [hsync]))
      · rw [if_neg hu]
        exact ih _ _ (process_word_len V _ _ _ hsync)

theorem processSpan_len (V : Vocab) (word : List Char) (ts : List (List Char))
    (ids : List Nat) (hsync : ts.length = ids.length) :
    ((processSpan V word ts ids).1).length = ((processSpan V word ts ids).2).length := by
  unfold processSpan
  by_cases hu : word.any pyIsUpper
  · rw [if_pos hu]
    exact processParts_len V (splitUpper word) ts ids hsync
  · rw [if_neg hu]
    exact process_word_len V word ts ids hsync

theorem scanText_len (V : Vocab) :
    ∀ (n : Nat) (text : List Char), text.length ≤ n →
      ∀ (ts : List (List Char)) (ids : List Nat), ts.length = ids.length →
        ((scanText V text ts ids).1).length = ((scanText V text ts ids).2).length := by
  intro n
  induction n with
  | zero =>
    intro text hw ts ids hsync
    have hnil : text = [] := List.length_eq_zero.mp (Nat.le_zero.mp hw)
    subst hnil
    simpa [scanText.eq_1] using hsync
  | succ n ih =>
    intro text hw ts ids hsync
    cases text with
    | nil => simpa [scanText.eq_1] using hsync
    | cons c rest =>
      simp only [List.length_cons] at hw
      by_cases h1 : c = ' '
      · subst h1
        rw [scanText_cons_space]
        exact ih rest (by omega) _ _ (by simp [hsync])
      · by_cases h2 : c = '\n'
        · subst h2
          rw [scanText_cons_newline]
          exact ih rest (by omega) _ _ (by simp [hsync])
        · by_cases h3 : c = '\t'
          · subst h3
            rw [scanText_cons_tab]
            exact ih rest (by omega) _ _ (by simp [hsync])
          · by_cases h4 : spanPred c
            · rw [scanText_cons_span h1 h2 h3 h4]
              simp only []
              apply ih _ (by
                rw [List.dropWhile_cons_of_pos h4]
                have h5 : (rest.dropWhile spanPred).length ≤ rest.length :=
                  (List.dropWhile_sublist _).length_le
                omega)
              exact processSpan_len V _ ts ids hsync
            · have h4' : spanPred c = false := by
                cases hc : spanPred c
                · rfl
                · exact absurd hc h4
              rw [scanText_cons_skip h1 h2 h3 h4']
              exact ih rest (by omega) ts ids hsync

/-- `found_any` is true exactly when at least one fragment was emitted. -/
theorem bpe_found_iff (V : Vocab) :
    ∀ (n : Nat) (w : List Char), w.length ≤ n →
      ((bpeEmit V w).2 = true ↔ (bpeEmit V w).1.1 ≠ []) := by
  intro n
  induction n with
  | zero =>
    intro w hw
    have hnil : w = [] := List.length_eq_zero.mp (Nat.le_zero.mp hw)
    subst hnil
    simp [bpeEmit, process_bpe, bpe_loop.eq_1]
  | succ n ih =>
    intro w hw
    cases w with
    | nil => simp [bpeEmit, process_bpe, bpe_loop.eq_1]
    | cons c rest =>
      cases hfh : firstHit V.bpe (c :: rest) 1 (c :: rest).length with
      | some p =>
        obtain ⟨t, id⟩ := p
        have hlen : ((c :: rest).drop t.length).length ≤ n := by
          have := firstHit_drop_lt (Nat.le_refl 1) hfh
          simp only [List.length_cons] at this hw ⊢
          omega
        have hstep : bpeEmit V (c :: rest) =
            (([t] ++ (bpeEmit V ((c :: rest).drop t.length)).1.1,
              [id] ++ (bpeEmit V ((c :: rest).drop t.length)).1.2),
              true) := by
          simp only [bpeEmit, process_bpe]
          rw [bpe_loop_cons_some hfh]
          rw [bpe_loop_frame V.bpe ((c :: rest).drop t.length).length _ (Nat.le_refl _)]
          simp
        rw [hstep]
        simp
      | none =>
        have hlen : rest.length ≤ n := by
          simp only [List.length_cons] at hw
          omega
        have hstep : bpeEmit V (c :: rest) = bpeEmit V rest := by
          simp only [bpeEmit, process_bpe]
          exact bpe_loop_cons_none hfh [] [] false
        rw [hstep]
        exact ih rest hlen

/-!
### Emission-level step equations and structural facts
-/

theorem bpeEmit_step_some {V : Vocab} {c : Char} {rest t : List Char} {id : Nat}
    (hfh : firstHit V.bpe (c :: rest) 1 (c :: rest).length = some (t, id)) :
    bpeEmit V (c :: rest) =
      ((t :: (bpeEmit V ((c :: rest).drop t.length)).1.1,
        id :: (bpeEmit V ((c :: rest).drop t.length)).1.2), true) := by
  simp only [bpeEmit, process_bpe]
  rw [bpe_loop_cons_some hfh]
  rw [bpe_loop_frame V.bpe ((c :: rest).drop t.length).length _ (Nat.le_refl _)]
  simp

theorem bpeEmit_step_none {V : Vocab} {c : Char} {rest : List Char}
    (hfh : firstHit V.bpe (c :: rest) 1 (c :: rest).length = none) :
    bpeEmit V (c :: rest) = bpeEmit V rest := by
  simp only [bpeEmit, process_bpe]
  exact bpe_loop_cons_none hfh [] [] false

theorem bpeEmit_nil (V : Vocab) : bpeEmit V [] = (([], []), false) := by
  simp [bpeEmit, process_bpe, bpe_loop.eq_1]

theorem bpeEmit_not_found {V : Vocab} {w : List Char}
    (h : (bpeEmit V w).2 = false) : (bpeEmit V w).1 = ([], []) := by
  have h1 : (bpeEmit V w).1.1 = [] := by
    by_contra hne
    have := (bpe_found_iff V w.length w (Nat.le_refl _)).mpr hne
    rw [this] at h
    exact Bool.noConfusion h
  have h2 : (bpeEmit V w).1.1.length = (bpeEmit V w).1.2.length := by
    simpa [bpeEmit, process_bpe] using
      bpe_loop_len V.bpe w.length w (Nat.le_refl _) [] [] false rfl
  rw [h1] at h2
  have h3 : (bpeEmit V w).1.2 = [] := by
    have := h2.symm
    simpa [List.length_eq_zero] using this
  exact Prod.ext h1 h3

theorem bpeEmit_count_le (V : Vocab) :
    ∀ (n : Nat) (w : List Char), w.length ≤ n →
      (bpeEmit V w).1.1.length ≤ w.length := by
  intro n
  induction n with
  | zero =>
    intro w hw
    have hnil : w = [] := List.length_eq_zero.mp (Nat.le_zero.mp hw)
    subst hnil
    simp [bpeEmit_nil]
  | succ n ih =>
    intro w hw
    cases w with
    | nil => simp [bpeEmit_nil]
    | cons c rest =>
      cases hfh : firstHit V.bpe (c :: rest) 1 (c :: rest).length with
      | some p =>
        obtain ⟨t, id⟩ := p
        have hd := firstHit_drop_lt (Nat.le_refl 1) hfh
        have hlen : ((c :: rest).drop t.length).length ≤ n := by
          simp only [List.length_cons] at hd hw ⊢
          omega
        rw [bpeEmit_step_some hfh]
        have := ih _ hlen
        simp only [List.length_cons] at hd ⊢
        omega
      | none =>
        have hlen : rest.length ≤ n := by
          simp only [List.length_cons] at hw
          omega
        rw [bpeEmit_step_none hfh]
        have := ih rest hlen
        simp only [List.length_cons]
        omega

theorem remEmit_nil (V : Vocab) : remEmit V [] = ([UNKNOWN], [4]) := by
  simp only [remEmit]
  rw [process_remainder_nil]
  simp

theorem remEmit_sfx {V : Vocab} {rem sfx : List Char} {id : Nat}
    (hs : match_suffix V.suffixes rem = some (sfx, id)) :
    remEmit V rem =
      if rem.drop sfx.length = [] then ([sfx], [id])
      else (sfx :: (remEmit V (rem.drop sfx.length)).1,
            id :: (remEmit V (rem.drop sfx.length)).2) := by
  simp only [remEmit]
  rw [process_remainder_sfx hs]
  by_cases hr : rem.drop sfx.length = []
  · rw [if_pos hr, if_pos hr]
    simp
  · rw [if_neg hr, if_neg hr]
    rw [process_remainder_frame V (rem.drop sfx.length).length _ (Nat.le_refl _)]
    simp [remEmit]

theorem remEmit_root {V : Vocab} {rem root : List Char} {id : Nat} {rem2 : List Char}
    (hs : match_suffix V.suffixes rem = none)
    (hr2 : match_root V.roots rem = some (root, id, rem2)) :
    remEmit V rem =
      if rem2 = [] then ([root], [id])
      else (root :: (remEmit V rem2).1, id :: (remEmit V rem2).2) := by
  simp only [remEmit]
  rw [process_remainder_root hs hr2]
  by_cases hr : rem2 = []
  · rw [if_pos hr, if_pos hr]
    simp
  · rw [if_neg hr, if_neg hr]
    rw [process_remainder_frame V rem2.length _ (Nat.le_refl _)]
    simp [remEmit]

theorem remEmit_bpe {V : Vocab} {rem : List Char}
    (hs : match_suffix V.suffixes rem = none)
    (hr2 : match_root V.roots rem = none) :
    remEmit V rem =
      if (bpeEmit V rem).2 then (bpeEmit V rem).1
      else ((bpeEmit V rem).1.1 ++ [UNKNOWN], (bpeEmit V rem).1.2 ++ [4]) := by
  simp only [remEmit]
  rw [process_remainder_bpe hs hr2]
  rw [process_bpe_frame V rem [] []]
  cases hb : (bpeEmit V rem).2 <;> simp [hb]

theorem wordEmit_root {V : Vocab} {word root : List Char} {id : Nat} {rem : List Char}
    (hmr : match_root V.roots word = some (root, id, rem)) :
    wordEmit V word =
      if rem = [] then ([root], [id])
      else (root :: (remEmit V rem).1, id :: (remEmit V rem).2) := by
  simp only [wordEmit, process_word, hmr]
  by_cases hr : rem = []
  · rw [if_pos hr, if_pos hr]
    simp
  · rw [if_neg hr, if_neg hr]
    rw [process_remainder_frame V rem.length _ (Nat.le_refl _)]
    simp [remEmit]

theorem wordEmit_bpe {V : Vocab} {word : List Char}
    (hmr : match_root V.roots word = none) :
    wordEmit V word =
      if (bpeEmit V word).2 then (bpeEmit V word).1
      else ((bpeEmit V word).1.1 ++ [UNKNOWN], (bpeEmit V word).1.2 ++ [4]) := by
  simp only [wordEmit, process_word, hmr]
  rw [process_bpe_frame V word [] []]
  cases hb : (bpeEmit V word).2 <;> simp [hb]

theorem wordEmit_ne_nil (V : Vocab) (word : List Char) : (wordEmit V word).1 ≠ [] := by
  cases hmr : match_root V.roots word with
  | some p =>
    obtain ⟨root, id, rem⟩ := p
    rw [wordEmit_root hmr]
    by_cases hr : rem = []
    · rw [if_pos hr]
      simp
    · rw [if_neg hr]
      simp
  | none =>
    rw [wordEmit_bpe hmr]
    cases hb : (bpeEmit V word).2
    · simp
    · simp only [if_pos]
      exact (bpe_found_iff V word.length word (Nat.le_refl _)).mp hb

theorem remEmit_count_le (V : Vocab) :
    ∀ (n : Nat) (rem : List Char), rem.length ≤ n → rem ≠ [] →
      (remEmit V rem).1.length ≤ rem.length := by
  intro n
  induction n with
  | zero =>
    intro rem hw hne
    have hnil : rem = [] := List.length_eq_zero.mp (Nat.le_zero.mp hw)
    exact absurd hnil hne
  | succ n ih =>
    intro rem hw hne
    have hpos : 1 ≤ rem.length := by
      cases rem with
      | nil => exact absurd rfl hne
      | cons a b => simp
    cases hs : match_suffix V.suffixes rem with
    | some p =>
      obtain ⟨sfx, id⟩ := p
      have hd := match_suffix_drop_lt hs
      rw [remEmit_sfx hs]
      by_cases hr : rem.drop sfx.length = []
      · rw [if_pos hr]
        simpa using hpos
      · rw [if_neg hr]
        have := ih (rem.drop sfx.length) (by omega) hr
        simp only [List.length_cons]
        omega
    | none =>
      cases hr2 : match_root V.roots rem with
      | some p =>
        obtain ⟨root, id, rem2⟩ := p
        have hd := (match_root_rem_lt hr2).1
        rw [remEmit_root hs hr2]
        by_cases hr : rem2 = []
        · rw [if_pos hr]
          simpa using hpos
        · rw [if_neg hr]
          have := ih rem2 (by omega) hr
          simp only [List.length_cons]
          omega
      | none =>
        rw [remEmit_bpe hs hr2]
        cases hb : (bpeEmit V rem).2
        · rw [if_neg (by simp [hb])]
          have h0 := bpeEmit_not_found hb
          have h1 : (bpeEmit V rem).1.1 = [] := by rw [h0]
          simp [h1]
          omega
        · rw [if_pos (by simp [hb])]
          exact bpeEmit_count_le V rem.length rem (Nat.le_refl _)

/-!
### Character-level facts
-/

theorem isAsciiUpper_iff {c : Char} :
    isAsciiUpper c = true ↔ 65 ≤ c.toNat ∧ c.toNat ≤ 90 := by
  simp only [isAsciiUpper, Bool.and_eq_true, decide_eq_true_eq, Char.le_def,
    UInt32.le_def, BitVec.le_def]
  rfl

theorem toNat_eq_of_eq {a b : Char} (h : a = b) : a.toNat = b.toNat := by
  rw [h]

theorem pyLower_eq_self {c : Char} (h : pyIsUpper c = false) : pyLower c = c := by
  simp only [pyIsUpper, Bool.or_eq_false_iff, decide_eq_false_iff_not] at h
  obtain ⟨⟨⟨⟨⟨⟨h0, h1⟩, h2⟩, h3⟩, h4⟩, h5⟩, h6⟩ := h
  unfold pyLower
  rw [if_neg h1, if_neg h2, if_neg h3, if_neg h4, if_neg h5, if_neg h6, if_neg (by simp [h0])]

theorem char_toNat_ofNat_valid {n : Nat} (h : n < 55296) : (Char.ofNat n).toNat = n := by
  have hv : n.isValidChar := Or.inl h
  rw [Char.ofNat, dif_pos hv]
  rfl

theorem pyLower_ascii {c : Char} (h : isAsciiUpper c = true) :
    (pyLower c).toNat = c.toNat + 32 := by
  obtain ⟨h1, h2⟩ := isAsciiUpper_iff.mp h
  have hne : ∀ (d : Char), 122 < d.toNat → c ≠ d := by
    intro d hd heq
    have := toNat_eq_of_eq heq
    omega
  unfold pyLower
  rw [if_neg (hne 'Ç' (by decide)), if_neg (hne 'Ğ' (by decide)),
    if_neg (hne 'İ' (by decide)), if_neg (hne 'Ö' (by decide)),
    if_neg (hne 'Ş' (by decide)), if_neg (hne 'Ü' (by decide)), if_pos h]
  exact char_toNat_ofNat_valid (by omega)

theorem pyIsUpper_toNat {c : Char} (h : pyIsUpper c = true) :
    (65 ≤ c.toNat ∧ c.toNat ≤ 90) ∨ 198 ≤ c.toNat := by
  simp only [pyIsUpper, Bool.or_eq_true, decide_eq_true_eq] at h
  rcases h with ((((((h | h) | h) | h) | h) | h) | h)
  · exact Or.inl (isAsciiUpper_iff.mp h)
  all_goals right
  all_goals rw [toNat_eq_of_eq h]
  all_goals decide

theorem pyLower_ascii_not_upper {c : Char} (h : isAsciiUpper c = true) :
    pyIsUpper (pyLower c) = false := by
  have h3 := pyLower_ascii h
  obtain ⟨h1, h2⟩ := isAsciiUpper_iff.mp h
  cases hres : pyIsUpper (pyLower c) with
  | false => rfl
  | true =>
    rcases pyIsUpper_toNat hres with ⟨h4, h5⟩ | h4 <;> omega

theorem pyIsUpper_of_ascii {c : Char} (h : isAsciiUpper c = true) :
    pyIsUpper c = true := by
  simp [pyIsUpper, h]

/-!
### Structure of the case split
-/

theorem head_dropWhile_upper :
    ∀ (v : List Char) (d : Char) (cs : List Char),
      v.dropWhile (fun x => !(isAsciiUpper x)) = d :: cs → isAsciiUpper d = true := by
  intro v
  induction v with
  | nil => intro d cs h; exact absurd h (by simp)
  | cons a t ih =>
    intro d cs h
    rw [List.dropWhile_cons] at h
    by_cases ha : isAsciiUpper a
    · rw [if_neg (by simp [ha])] at h
      injection h with h1 h2
      subst h1
      exact ha
    · rw [if_pos (by simp [ha])] at h
      exact ih d cs h

theorem splitUpperAux_flatten :
    ∀ (n : Nat) (v : List Char), v.length ≤ n → (splitUpperAux v).flatten = v := by
  intro n
  induction n with
  | zero =>
    intro v hv
    have hnil : v = [] := List.length_eq_zero.mp (Nat.le_zero.mp hv)
    subst hnil
    rw [splitUpperAux.eq_1]
    rfl
  | succ n ih =>
    intro v hv
    cases v with
    | nil => rw [splitUpperAux.eq_1]; rfl
    | cons c rest =>
      rw [splitUpperAux.eq_2]
      have hlen : (rest.dropWhile (fun d => !(isAsciiUpper d))).length ≤ n := by
        have h1 : (rest.dropWhile (fun d => !(isAsciiUpper d))).length ≤ rest.length :=
          (List.dropWhile_sublist _).length_le
        simp only [List.length_cons] at hv
        omega
      simp only [List.flatten_cons, List.nil_append]
      rw [ih _ hlen]
      simp [List.takeWhile_append_dropWhile]

theorem splitUpper_flatten (w : List Char) : (splitUpper w).flatten = w := by
  unfold splitUpper
  simp only [List.flatten_cons]
  rw [splitUpperAux_flatten (w.dropWhile (fun d => !(isAsciiUpper d))).length _ (Nat.le_refl _)]
  simp [List.takeWhile_append_dropWhile]

theorem splitUpperAux_pieces :
    ∀ (n : Nat) (v : List Char), v.length ≤ n →
      (∀ (d : Char) (cs : List Char), v = d :: cs → isAsciiUpper d = true) →
      ∀ p ∈ splitUpperAux v,
        p = [] ∨ ∃ c cs, p = c :: cs ∧ isAsciiUpper c = true ∧
          ∀ d ∈ cs, isAsciiUpper d = false := by
  intro n
  induction n with
  | zero =>
    intro v hv hhead p hp
    have hnil : v = [] := List.length_eq_zero.mp (Nat.le_zero.mp hv)
    subst hnil
    rw [splitUpperAux.eq_1] at hp
    exact absurd hp (by simp)
  | succ n ih =>
    intro v hv hhead p hp
    cases v with
    | nil =>
      rw [splitUpperAux.eq_1] at hp
      exact absurd hp (by simp)
    | cons c rest =>
      rw [splitUpperAux.eq_2] at hp
      have hlen : (rest.dropWhile (fun d => !(isAsciiUpper d))).length ≤ n := by
        have h1 : (rest.dropWhile (fun d => !(isAsciiUpper d))).length ≤ rest.length :=
          (List.dropWhile_sublist _).length_le
        simp only [List.length_cons] at hv
        omega
      simp only [List.mem_cons] at hp
      rcases hp with hp | hp | hp
      · right
        refine ⟨c, rest.takeWhile (fun d => !(isAsciiUpper d)), hp, hhead c rest rfl, ?_⟩
        intro d hd
        have := List.mem_takeWhile_imp hd
        simpa using this
      · exact Or.inl hp
      · exact ih _ hlen (fun d cs h => head_dropWhile_upper rest d cs h) p hp

theorem splitUpper_pieces (w : List Char) :
    ∀ p ∈ splitUpper w,
      (∀ d ∈ p, isAsciiUpper d = false) ∨
        ∃ c cs, p = c :: cs ∧ isAsciiUpper c = true ∧
          ∀ d ∈ cs, isAsciiUpper d = false := by
  intro p hp
  unfold splitUpper at hp
  simp only [List.mem_cons] at hp
  rcases hp with hp | hp
  · left
    intro d hd
    rw [hp] at hd
    have := List.mem_takeWhile_imp hd
    simpa using this
  · have := splitUpperAux_pieces (w.dropWhile (fun d => !(isAsciiUpper d))).length _
      (Nat.le_refl _) (fun d cs h => head_dropWhile_upper w d cs h) p hp
    rcases this with h | h
    · left
      intro d hd
      rw [h] at hd
      exact absurd hd (by simp)
    · exact Or.inr h

/-!
### Characters of emitted tokens
-/

theorem bpeEmit_chars (V : Vocab) :
    ∀ (n : Nat) (w : List Char), w.length ≤ n →
      ∀ (P : Char → Prop), (∀ c ∈ w, P c) →
        ∀ t ∈ (bpeEmit V w).1.1, ∀ c ∈ t, P c := by
  intro n
  induction n with
  | zero =>
    intro w hw P hP t ht
    have hnil : w = [] := List.length_eq_zero.mp (Nat.le_zero.mp hw)
    subst hnil
    rw [bpeEmit_nil] at ht
    exact absurd ht (by simp)
  | succ n ih =>
    intro w hw P hP t ht
    cases w with
    | nil =>
      rw [bpeEmit_nil] at ht
      exact absurd ht (by simp)
    | cons c rest =>
      cases hfh : firstHit V.bpe (c :: rest) 1 (c :: rest).length with
      | some p =>
        obtain ⟨t0, id⟩ := p
        have hlen : ((c :: rest).drop t0.length).length ≤ n := by
          have := firstHit_drop_lt (Nat.le_refl 1) hfh
          simp only [List.length_cons] at this hw ⊢
          omega
        rw [bpeEmit_step_some hfh] at ht
        simp only [List.mem_cons] at ht
        rcases ht with ht | ht
        · subst ht
          obtain ⟨i, _, _, hteq, _, _⟩ := firstHit_some hfh
          subst hteq
          intro c' hc'
          exact hP c' (List.take_subset i (c :: rest) hc')
        · have hPd : ∀ c' ∈ (c :: rest).drop t0.length, P c' := by
            intro c' hc'
            exact hP c' (List.drop_subset _ (c :: rest) hc')
          exact ih _ hlen P hPd t ht
      | none =>
        have hlen : rest.length ≤ n := by
          simp only [List.length_cons] at hw
          omega
        rw [bpeEmit_step_none hfh] at ht
        have hPr : ∀ c' ∈ rest, P c' := fun c' hc' => hP c' (List.mem_cons_of_mem c hc')
        exact ih rest hlen P hPr t ht

theorem remEmit_chars (V : Vocab) :
    ∀ (n : Nat) (rem : List Char), rem.length ≤ n →
      ∀ (P : Char → Prop), (∀ c ∈ rem, P c) →
        ∀ t ∈ (remEmit V rem).1, t = UNKNOWN ∨ ∀ c ∈ t, P c := by
  intro n
  induction n with
  | zero =>
    intro rem hw P hP t ht
    have hnil : rem = [] := List.length_eq_zero.mp (Nat.le_zero.mp hw)
    subst hnil
    rw [remEmit_nil] at ht
    simp only [List.mem_singleton] at ht
    exact Or.inl ht
  | succ n ih =>
    intro rem hw P hP t ht
    cases hs : match_suffix V.suffixes rem with
    | some p =>
      obtain ⟨sfx, id⟩ := p
      have hsfx_chars : ∀ c ∈ sfx, P c := by
        obtain ⟨i, _, _, hteq, _, _⟩ := firstHit_some hs
        subst hteq
        intro c' hc'
        exact hP c' (List.take_subset i rem hc')
      have hd := match_suffix_drop_lt hs
      rw [remEmit_sfx hs] at ht
      by_cases hr : rem.drop sfx.length = []
      · rw [if_pos hr] at ht
        simp only [List.mem_singleton] at ht
        subst ht
        exact Or.inr hsfx_chars
      · rw [if_neg hr] at ht
        simp only [List.mem_cons] at ht
        rcases ht with ht | ht
        · subst ht
          exact Or.inr hsfx_chars
        · have hPd : ∀ c ∈ rem.drop sfx.length, P c := by
            intro c' hc'
            exact hP c' (List.drop_subset _ rem hc')
          exact ih _ (by omega) P hPd t ht
    | none =>
      cases hr2 : match_root V.roots rem with
      | some p =>
        obtain ⟨root, id, rem2⟩ := p
        obtain ⟨hfh, hrem2⟩ := match_root_some hr2
        have hroot_chars : ∀ c ∈ root, P c := by
          obtain ⟨i, _, _, hteq, _, _⟩ := firstHit_some hfh
          subst hteq
          intro c' hc'
          exact hP c' (List.take_subset i rem hc')
        have hd := (match_root_rem_lt hr2).1
        rw [remEmit_root hs hr2] at ht
        by_cases hr : rem2 = []
        · rw [if_pos hr] at ht
          simp only [List.mem_singleton] at ht
          subst ht
          exact Or.inr hroot_chars
        · rw [if_neg hr] at ht
          simp only [List.mem_cons] at ht
          rcases ht with ht | ht
          · subst ht
            exact Or.inr hroot_chars
          · have hPd : ∀ c ∈ rem2, P c := by
              intro c' hc'
              rw [hrem2] at hc'
              exact hP c' (List.drop_subset _ rem hc')
            exact ih _ (by omega) P hPd t ht
      | none =>
        rw [remEmit_bpe hs hr2] at ht
        cases hb : (bpeEmit V rem).2
        · rw [if_neg (by simp [hb])] at ht
          rw [List.mem_append] at ht
          rcases ht with ht | ht
          · exact Or.inr (bpeEmit_chars V rem.length rem (Nat.le_refl _) P hP t ht)
          · simp only [List.mem_singleton] at ht
            exact Or.inl ht
        · rw [if_pos (by simp [hb])] at ht
          exact Or.inr (bpeEmit_chars V rem.length rem (Nat.le_refl _) P hP t ht)

theorem wordEmit_chars (V : Vocab) (word : List Char) (P : Char → Prop)
    (hP : ∀ c ∈ word, P c) :
    ∀ t ∈ (wordEmit V word).1, t = UNKNOWN ∨ ∀ c ∈ t, P c := by
  intro t ht
  cases hmr : match_root V.roots word with
  | some p =>
    obtain ⟨root, id, rem⟩ := p
    obtain ⟨hfh, hrem⟩ := match_root_some hmr
    have hroot_chars : ∀ c ∈ root, P c := by
      obtain ⟨i, _, _, hteq, _, _⟩ := firstHit_some hfh
      subst hteq
      intro c' hc'
      exact hP c' (List.take_subset i word hc')
    rw [wordEmit_root hmr] at ht
    by_cases hr : rem = []
    · rw [if_pos hr] at ht
      simp only [List.mem_singleton] at ht
      subst ht
      exact Or.inr hroot_chars
    · rw [if_neg hr] at ht
      simp only [List.mem_cons] at ht
      rcases ht with ht | ht
      · subst ht
        exact Or.inr hroot_chars
      · have hPd : ∀ c ∈ rem, P c := by
          intro c' hc'
          rw [hrem] at hc'
          exact hP c' (List.drop_subset _ word hc')
        exact remEmit_chars V rem.length rem (Nat.le_refl _) P hPd t ht
  | none =>
    rw [wordEmit_bpe hmr] at ht
    cases hb : (bpeEmit V word).2
    · rw [if_neg (by simp [hb])] at ht
      rw [List.mem_append] at ht
      rcases ht with ht | ht
      · exact Or.inr (bpeEmit_chars V word.length word (Nat.le_refl _) P hP t ht)
      · simp only [List.mem_singleton] at ht
        exact Or.inl ht
    · rw [if_pos (by simp [hb])] at ht
      exact Or.inr (bpeEmit_chars V word.length word (Nat.le_refl _) P hP t ht)

/-!
### Table extensionality

The tokenizer consults the tables only through `lookupT`; two vocabularies
whose tables answer every lookup identically produce identical output.
-/

theorem firstHit_congr {t1 t2 : Table} (h : ∀ k, lookupT t1 k = lookupT t2 k)
    (w : List Char) (m : Nat) : ∀ s, firstHit t1 w m s = firstHit t2 w m s := by
  intro s
  induction s with
  | zero => rfl
  | succ n ih =>
    rw [firstHit, firstHit, h (w.take (n + 1)), ih]

theorem match_root_congr {t1 t2 : Table} (h : ∀ k, lookupT t1 k = lookupT t2 k)
    (w : List Char) : match_root t1 w = match_root t2 w := by
  unfold match_root
  rw [firstHit_congr h w 2 w.length]

theorem match_suffix_congr {t1 t2 : Table} (h : ∀ k, lookupT t1 k = lookupT t2 k)
    (w : List Char) : match_suffix t1 w = match_suffix t2 w := by
  unfold match_suffix
  rw [firstHit_congr h w 1 w.length]

theorem bpe_loop_congr {t1 t2 : Table} (h : ∀ k, lookupT t1 k = lookupT t2 k) :
    ∀ (n : Nat) (w : List Char), w.length ≤ n →
      ∀ (ts : List (List Char)) (ids : List Nat) (f : Bool),
        bpe_loop t1 w ts ids f = bpe_loop t2 w ts ids f := by
  intro n
  induction n with
  | zero =>
    intro w hw ts ids f
    have hnil : w = [] := List.length_eq_zero.mp (Nat.le_zero.mp hw)
    subst hnil
    rw [bpe_loop.eq_1, bpe_loop.eq_1]
  | succ n ih =>
    intro w hw ts ids f
    cases w with
    | nil => rw [bpe_loop.eq_1, bpe_loop.eq_1]
    | cons c rest =>
      have hfh12 := firstHit_congr h (c :: rest) 1 (c :: rest).length
      cases hfh : firstHit t2 (c :: rest) 1 (c :: rest).length with
      | some p =>
        obtain ⟨t, id⟩ := p
        have hfh1 : firstHit t1 (c :: rest) 1 (c :: rest).length = some (t, id) := by
          rw [hfh12, hfh]
        have hlen : ((c :: rest).drop t.length).length ≤ n := by
          have := firstHit_drop_lt (Nat.le_refl 1) hfh
          simp only [List.length_cons] at this hw ⊢
          omega
        rw [bpe_loop_cons_some hfh1, bpe_loop_cons_some hfh]
        exact ih _ hlen _ _ _
      | none =>
        have hfh1 : firstHit t1 (c :: rest) 1 (c :: rest).length = none := by
          rw [hfh12, hfh]
        have hlen : rest.length ≤ n := by
          simp only [List.length_cons] at hw
          omega
        rw [bpe_loop_cons_none hfh1, bpe_loop_cons_none hfh]
        exact ih _ hlen _ _ _

/-- Lookup-level agreement of two vocabularies. -/
def VocabAgree (V W : Vocab) : Prop :=
  (∀ k, lookupT V.roots k = lookupT W.roots k) ∧
    (∀ k, lookupT V.suffixes k = lookupT W.suffixes k) ∧
    (∀ k, lookupT V.bpe k = lookupT W.bpe k)

theorem process_remainder_congr {V W : Vocab} (h : VocabAgree V W) :
    ∀ (n : Nat) (rem : List Char), rem.length ≤ n →
      ∀ (ts : List (List Char)) (ids : List Nat),
        process_remainder V rem ts ids = process_remainder W rem ts ids := by
  obtain ⟨hr, hs, hb⟩ := h
  intro n
  induction n with
  | zero =>
    intro rem hw ts ids
    have hnil : rem = [] := List.length_eq_zero.mp (Nat.le_zero.mp hw)
    subst hnil
    rw [process_remainder_nil, process_remainder_nil]
  | succ n ih =>
    intro rem hw ts ids
    have hsfx12 := match_suffix_congr hs rem
    cases hsfx : match_suffix W.suffixes rem with
    | some p =>
      obtain ⟨sfx, id⟩ := p
      have hsfx1 : match_suffix V.suffixes rem = some (sfx, id) := by
        rw [hsfx12, hsfx]
      rw [process_remainder_sfx hsfx1, process_remainder_sfx hsfx]
      by_cases hrr : rem.drop sfx.length = []
      · rw [if_pos hrr, if_pos hrr]
      · rw [if_neg hrr, if_neg hrr]
        have hd := match_suffix_drop_lt hsfx
        exact ih _ (by omega) _ _
    | none =>
      have hsfx1 : match_suffix V.suffixes rem = none := by
        rw [hsfx12, hsfx]
      have hroot12 := match_root_congr hr rem
      cases hroot : match_root W.roots rem with
      | some p =>
        obtain ⟨root, id, rem2⟩ := p
        have hroot1 : match_root V.roots rem = some (root, id, rem2) := by
          rw [hroot12, hroot]
        rw [process_remainder_root hsfx1 hroot1, process_remainder_root hsfx hroot]
        by_cases hrr : rem2 = []
        · rw [if_pos hrr, if_pos hrr]
        · rw [if_neg hrr, if_neg hrr]
          have hd := (match_root_rem_lt hroot).1
          exact ih _ (by omega) _ _
      | none =>
        have hroot1 : match_root V.roots rem = none := by
          rw [hroot12, hroot]
        rw [process_remainder_bpe hsfx1 hroot1, process_remainder_bpe hsfx hroot]
        simp only [process_bpe]
        rw [bpe_loop_congr hb rem.length rem (Nat.le_refl _) ts ids false]

theorem process_word_congr {V W : Vocab} (h : VocabAgree V W) (word : List Char)
    (ts : List (List Char)) (ids : List Nat) :
    process_word V word ts ids = process_word W word ts ids := by
  obtain ⟨hr, hs, hb⟩ := h
  have hroot12 := match_root_congr hr word
  cases hroot : match_root W.roots word with
  | some p =>
    obtain ⟨root, id, rem⟩ := p
    have hroot1 : match_root V.roots word = some (root, id, rem) := by
      rw [hroot12, hroot]
    simp only [process_word, hroot1, hroot]
    by_cases hrr : rem = []
    · rw [if_pos hrr, if_pos hrr]
    · rw [if_neg hrr, if_neg hrr]
      exact process_remainder_congr ⟨hr, hs, hb⟩ rem.length rem (Nat.le_refl _) _ _
  | none =>
    have hroot1 : match_root V.roots word = none := by
      rw [hroot12, hroot]
    simp only [process_word, hroot1, hroot, process_bpe]
    rw [bpe_loop_congr hb word.length word (Nat.le_refl _) ts ids false]

theorem processParts_congr {V W : Vocab} (h : VocabAgree V W) :
    ∀ (ps : List (List Char)) (ts : List (List Char)) (ids : List Nat),
      processParts V ps ts ids = processParts W ps ts ids := by
  intro ps
  induction ps with
  | nil => intro ts ids; rfl
  | cons p rest ih =>
    intro ts ids
    cases p with
    | nil =>
      simp only [processParts]
      exact ih ts ids
    | cons c cs =>
      simp only [processParts]
      by_cases hu : pyIsUpper c
      · rw [if_pos hu, if_pos hu, process_word_congr h]
        exact ih _ _
      · rw [if_neg hu, if_neg hu, process_word_congr h]
        exact ih _ _

theorem processSpan_congr {V W : Vocab} (h : VocabAgree V W) (word : List Char)
    (ts : List (List Char)) (ids : List Nat) :
    processSpan V word ts ids = processSpan W word ts ids := by
  unfold processSpan
  by_cases hu : word.any pyIsUpper
  · rw [if_pos hu, if_pos hu]
    exact processParts_congr h (splitUpper word) ts ids
  · rw [if_neg hu, if_neg hu]
    exact process_word_congr h word ts ids

theorem scanText_congr {V W : Vocab} (h : VocabAgree V W) :
    ∀ (n : Nat) (text : List Char), text.length ≤ n →
      ∀ (ts : List (List Char)) (ids : List Nat),
        scanText V text ts ids = scanText W text ts ids := by
  intro n
  induction n with
  | zero =>
    intro text hw ts ids
    have hnil : text = [] := List.length_eq_zero.mp (Nat.le_zero.mp hw)
    subst hnil
    rw [scanText.eq_1, scanText.eq_1]
  | succ n ih =>
    intro text hw ts ids
    cases text with
    | nil => rw [scanText.eq_1, scanText.eq_1]
    | cons c rest =>
      simp only [List.length_cons] at hw
      by_cases h1 : c = ' '
      · subst h1
        rw [scanText_cons_space, scanText_cons_space]
        exact ih rest (by omega) _ _
      · by_cases h2 : c = '\n'
        · subst h2
          rw [scanText_cons_newline, scanText_cons_newline]
          exact ih rest (by omega) _ _
        · by_cases h3 : c = '\t'
          · subst h3
            rw [scanText_cons_tab, scanText_cons_tab]
            exact ih rest (by omega) _ _
          · by_cases h4 : spanPred c
            · rw [scanText_cons_span h1 h2 h3 h4, scanText_cons_span h1 h2 h3 h4]
              simp only []
              rw [processSpan_congr h ((c :: rest).takeWhile spanPred) ts ids]
              apply ih
              rw [List.dropWhile_cons_of_pos h4]
              have h5 : (rest.dropWhile spanPred).length ≤ rest.length :=
                (List.dropWhile_sublist _).length_le
              omega
            · have h4' : spanPred c = false := by
                cases hc : spanPred c
                · rfl
                · exact absurd hc h4
              rw [scanText_cons_skip h1 h2 h3 h4', scanText_cons_skip h1 h2 h3 h4']
              exact ih rest (by omega) ts ids

theorem tokenize_congr {V W : Vocab} (h : VocabAgree V W) (text : List Char) :
    tokenize V text = tokenize W text := by
  unfold tokenize
  exact scanText_congr h text.length text (Nat.le_refl _) [] []

/-!
### Remaining helpers for the claims
-/

theorem partsEmit_nil (V : Vocab) : partsEmit V [] = ([], []) := rfl

theorem partsEmit_cons_empty (V : Vocab) (ps : List (List Char)) :
    partsEmit V ([] :: ps) = partsEmit V ps := by
  simp only [partsEmit, processParts]

theorem partsEmit_cons_upper (V : Vocab) {c : Char} (cs : List Char)
    (ps : List (List Char)) (hu : pyIsUpper c = true) :
    partsEmit V ((c :: cs) :: ps) =
      ((UPPERCASE :: (wordEmit V ((c :: cs).map pyLower)).1) ++ (partsEmit V ps).1,
       (0 :: (wordEmit V ((c :: cs).map pyLower)).2) ++ (partsEmit V ps).2) := by
  simp only [partsEmit, processParts]
  rw [if_pos hu]
  rw [process_word_frame V ((c :: cs).map pyLower) ([] ++ [UPPERCASE]) ([] ++ [0])]
  rw [processParts_frame]
  simp [partsEmit]

theorem partsEmit_cons_notupper (V : Vocab) {c : Char} (cs : List Char)
    (ps : List (List Char)) (hu : pyIsUpper c = false) :
    partsEmit V ((c :: cs) :: ps) =
      ((wordEmit V (c :: cs)).1 ++ (partsEmit V ps).1,
       (wordEmit V (c :: cs)).2 ++ (partsEmit V ps).2) := by
  simp only [partsEmit, processParts]
  rw [if_neg (by simp [hu])]
  rw [process_word_frame V (c :: cs) [] []]
  rw [processParts_frame]
  simp [partsEmit, wordEmit]

/-- If no non-empty substring of `w` is a BPE key, the encoder emits nothing
and reports failure. -/
theorem bpeEmit_all_none (V : Vocab) :
    ∀ (n : Nat) (w : List Char), w.length ≤ n →
      (∀ i L, 1 ≤ L → lookupT V.bpe ((w.drop i).take L) = none) →
      bpeEmit V w = (([], []), false) := by
  intro n
  induction n with
  | zero =>
    intro w hw hnone
    have hnil : w = [] := List.length_eq_zero.mp (Nat.le_zero.mp hw)
    subst hnil
    exact bpeEmit_nil V
  | succ n ih =>
    intro w hw hnone
    cases w with
    | nil => exact bpeEmit_nil V
    | cons c rest =>
      have hfh : firstHit V.bpe (c :: rest) 1 (c :: rest).length = none := by
        rw [firstHit_none (Nat.le_refl 1)]
        intro j hj1 hj2
        have := hnone 0 j hj1
        simpa using this
      rw [bpeEmit_step_none hfh]
      apply ih rest (by simp only [List.length_cons] at hw; omega)
      intro i L hL
      have := hnone (i + 1) L hL
      simpa using this

/-- Splitting a span followed by a non-span character at the boundary. -/
theorem span_take_drop {p : Char → Bool} :
    ∀ (u : List Char) (b : Char) (v : List Char), (∀ c ∈ u, p c = true) → p b = false →
      (u ++ b :: v).takeWhile p = u ∧ (u ++ b :: v).dropWhile p = b :: v := by
  intro u
  induction u with
  | nil =>
    intro b v hu hb
    constructor
    · simp [List.takeWhile_cons, hb]
    · simp [List.dropWhile_cons, hb]
  | cons a u2 ih =>
    intro b v hu hb
    have ha : p a = true := hu a (List.mem_cons_self a u2)
    obtain ⟨h1, h2⟩ := ih b v (fun c hc => hu c (List.mem_cons_of_mem a hc)) hb
    constructor
    · rw [List.cons_append, List.takeWhile_cons, if_pos ha, h1]
    · rw [List.cons_append, List.dropWhile_cons, if_pos ha, h2]

theorem spanPred_ne_ws {c : Char} (h : spanPred c = true) :
    c ≠ ' ' ∧ c ≠ '\n' ∧ c ≠ '\t' := by
  refine ⟨?_, ?_, ?_⟩ <;> intro heq <;> subst heq <;> simp [spanPred, pyIsAlnum] at h

/-!
### Validation against the documented reference run

A small vocabulary containing exactly the entries that the first example
in the source's `__main__` block exercises; the tokenizer reproduces the
documented token/id sequences.
-/

/-- Vocabulary fragment covering the reference scenario from the source. -/
def exVocab : Vocab :=
  { roots := [("kitab".toList, 385), ("ve".toList, 19901), ("defter".toList, 2001),
      ("getir".toList, 159), ("you".toList, 643), ("tube".toList, 21941)],
    suffixes := [("ı".toList, 22270), ("ler".toList, 22268), ("i".toList, 22269),
      ("n".toList, 22284), (",".toList, 20022)],
    bpe := [] }

/-- The documented example output of the source file is reproduced. -/
theorem reference_scenario :
    tokenize exVocab "Kitabı ve defterleri getirn,\nYouTube\t".toList =
      ([UPPERCASE, "kitab".toList, "ı".toList, SPACE, "ve".toList, SPACE,
        "defter".toList, "ler".toList, "i".toList, SPACE, "getir".toList,
        "n".toList, ",".toList, NEWLINE, UPPERCASE, "you".toList, UPPERCASE,
        "tube".toList, TAB],
       [0, 385, 22270, 1, 19901, 1, 2001, 22268, 22269, 1, 159, 22284, 20022, 2,
        0, 643, 0, 21941, 3]) := by
  rw [← tokenizeF_eq]
  decide

/-!
### The claims
-/

/-- C2.  Root matching scans candidate prefix lengths from the full word
length down to 2 inclusive and returns the first (hence longest) prefix
present in the root table together with its id and the unmatched
remainder; a length-1 prefix is never returned, and no longer prefix of
the word is a root-table key when a match is returned; when no match is
returned, no prefix of length between 2 and the word length is a key. -/
theorem claim_C2_match_root (R : Table) (word : List Char) :
    (∀ root id rem, match_root R word = some (root, id, rem) →
      2 ≤ root.length ∧ root = word.take root.length ∧
      lookupT R root = some id ∧ rem = word.drop root.length ∧
      (∀ j, root.length < j → j ≤ word.length → lookupT R (word.take j) = none)) ∧
    (match_root R word = none →
      ∀ j, 2 ≤ j → j ≤ word.length → lookupT R (word.take j) = none) := by
  constructor
  · intro root id rem hmr
    obtain ⟨hfh, hrem⟩ := match_root_some hmr
    obtain ⟨i, hi1, hi2, hi3, hi4, hi5⟩ := firstHit_some hfh
    have hlen : root.length = i := by
      subst hi3
      simp only [List.length_take]
      omega
    refine ⟨by omega, ?_, ?_, ?_, ?_⟩
    · rw [hlen]
      exact hi3
    · rw [hi3]
      exact hi4
    · rw [hrem]
    · intro j hj1 hj2
      exact hi5 j (by omega) hj2
  · intro hmr j hj1 hj2
    have hfh : firstHit R word 2 word.length = none := by
      unfold match_root at hmr
      cases hfh2 : firstHit R word 2 word.length with
      | some p =>
        obtain ⟨t, id⟩ := p
        rw [hfh2] at hmr
        exact Option.noConfusion hmr
      | none => rfl
    exact (firstHit_none (by omega)).mp hfh j hj1 hj2

/-- C1.  Remainder resolution is a strictly ordered cascade: a suffix
attempt first (longest prefix wins, lengths scanned from the remainder's
length down to 1), then a root attempt (minimum length 2), then BPE, and
`<unknown>` exactly when BPE emits nothing; each successful suffix or root
match strips the matched prefix and re-enters the cascade on the rest. -/
theorem claim_C1_cascade (V : Vocab) (rem : List Char) (hne : rem ≠ []) :
    (∀ sfx id, match_suffix V.suffixes rem = some (sfx, id) →
      1 ≤ sfx.length ∧ sfx = rem.take sfx.length ∧
      lookupT V.suffixes sfx = some id ∧
      (∀ j, sfx.length < j → j ≤ rem.length → lookupT V.suffixes (rem.take j) = none) ∧
      remEmit V rem =
        (if rem.drop sfx.length = [] then ([sfx], [id])
         else (sfx :: (remEmit V (rem.drop sfx.length)).1,
               id :: (remEmit V (rem.drop sfx.length)).2))) ∧
    (match_suffix V.suffixes rem = none →
      ∀ root id rem2, match_root V.roots rem = some (root, id, rem2) →
        2 ≤ root.length ∧ rem2 = rem.drop root.length ∧
        remEmit V rem =
          (if rem2 = [] then ([root], [id])
           else (root :: (remEmit V rem2).1, id :: (remEmit V rem2).2))) ∧
    (match_suffix V.suffixes rem = none → match_root V.roots rem = none →
      ((bpeEmit V rem).2 = true → remEmit V rem = (bpeEmit V rem).1) ∧
      ((bpeEmit V rem).2 = false → remEmit V rem = ([UNKNOWN], [4]))) := by
  refine ⟨?_, ?_, ?_⟩
  · intro sfx id hs
    obtain ⟨i, hi1, hi2, hi3, hi4, hi5⟩ := firstHit_some hs
    have hlen : sfx.length = i := by
      subst hi3
      simp only [List.length_take]
      omega
    refine ⟨by omega, ?_, ?_, ?_, remEmit_sfx hs⟩
    · rw [hlen]
      exact hi3
    · rw [hi3]
      exact hi4
    · intro j hj1 hj2
      exact hi5 j (by omega) hj2
  · intro hs root id rem2 hr2
    obtain ⟨hfh, hrem⟩ := match_root_some hr2
    obtain ⟨h1, h2⟩ := firstHit_len_bounds hfh
    exact ⟨h1, hrem, remEmit_root hs hr2⟩
  · intro hs hr2
    constructor
    · intro hb
      rw [remEmit_bpe hs hr2, if_pos (by simp [hb])]
    · intro hb
      rw [remEmit_bpe hs hr2, if_neg (by simp [hb])]
      have h0 := bpeEmit_not_found hb
      have h1 : (bpeEmit V rem).1.1 = [] := by rw [h0]
      have h2 : (bpeEmit V rem).1.2 = [] := by rw [h0]
      rw [h1, h2]
      simp

/-- C3.  BPE fallback: at each cursor position the encoder takes the
longest table substring starting there (end positions scanned from the end
of the string down to cursor + 1) and advances past it; if no substring
starting at the cursor is in the table it advances exactly one character
with no emission; the call reports success exactly when at least one
fragment was emitted, even when skipped characters leave gaps. -/
theorem claim_C3_bpe (V : Vocab) :
    (∀ c rest t id, firstHit V.bpe (c :: rest) 1 (c :: rest).length = some (t, id) →
      1 ≤ t.length ∧ t = (c :: rest).take t.length ∧ lookupT V.bpe t = some id ∧
      (∀ j, t.length < j → j ≤ (c :: rest).length →
        lookupT V.bpe ((c :: rest).take j) = none) ∧
      bpeEmit V (c :: rest) =
        ((t :: (bpeEmit V ((c :: rest).drop t.length)).1.1,
          id :: (bpeEmit V ((c :: rest).drop t.length)).1.2), true)) ∧
    (∀ c rest, firstHit V.bpe (c :: rest) 1 (c :: rest).length = none →
      bpeEmit V (c :: rest) = bpeEmit V rest) ∧
    (∀ w ts ids, (process_bpe V w ts ids).2 = true ↔ (bpeEmit V w).1.1 ≠ []) := by
  refine ⟨?_, ?_, ?_⟩
  · intro c rest t id hfh
    obtain ⟨i, hi1, hi2, hi3, hi4, hi5⟩ := firstHit_some hfh
    have hlen : t.length = i := by
      subst hi3
      simp only [List.length_take, List.length_cons]
      simp only [List.length_cons] at hi2
      omega
    refine ⟨by omega, ?_, ?_, ?_, bpeEmit_step_some hfh⟩
    · rw [hlen]
      exact hi3
    · rw [hi3]
      exact hi4
    · intro j hj1 hj2
      exact hi5 j (by omega) hj2
  · intro c rest hfh
    exact bpeEmit_step_none hfh
  · intro w ts ids
    rw [process_bpe_frame]
    simp only []
    exact bpe_found_iff V w.length w (Nat.le_refl _)

/-- C6.  Remainder resolution terminates: every successful suffix match
and every successful root match strictly shortens the remainder, and the
number of tokens emitted for a non-empty remainder (one per resolution
step plus the terminal BPE or `<unknown>` tokens) is bounded by the
remainder's length; the resolution function is total by construction. -/
theorem claim_C6_termination (V : Vocab) :
    (∀ rem sfx id, match_suffix V.suffixes rem = some (sfx, id) →
      (rem.drop sfx.length).length < rem.length) ∧
    (∀ rem root id rem2, match_root V.roots rem = some (root, id, rem2) →
      rem2.length < rem.length) ∧
    (∀ rem, rem ≠ [] → (remEmit V rem).1.length ≤ rem.length) := by
  refine ⟨?_, ?_, ?_⟩
  · intro rem sfx id hs
    exact match_suffix_drop_lt hs
  · intro rem root id rem2 hr2
    exact (match_root_rem_lt hr2).1
  · intro rem hne
    exact remEmit_count_le V rem.length rem (Nat.le_refl _) hne

/-- C7.  Given loaded tables, `tokenize` is total (it is a function in
this embedding, defined for every input including the empty string):
empty input yields empty output, a character outside the scanner's
classes is skipped silently and processing continues, already-accumulated
tokens are never discarded (every run only appends to the accumulators),
and after an unmatched unit the stream keeps accumulating across the rest
of the text. -/
theorem claim_C7_totality (V : Vocab) :
    tokenize V [] = ([], []) ∧
    (∀ c rest, c ≠ ' ' → c ≠ '\n' → c ≠ '\t' → spanPred c = false →
      tokenize V (c :: rest) = tokenize V rest) ∧
    (∀ text ts ids, scanText V text ts ids =
      (ts ++ (tokenize V text).1, ids ++ (tokenize V text).2)) ∧
    (∀ word rest, word ≠ [] → (∀ c ∈ word, spanPred c = true) →
      tokenize V (word ++ ' ' :: rest) =
        ((processSpan V word [] []).1 ++ SPACE :: (tokenize V rest).1,
         (processSpan V word [] []).2 ++ 1 :: (tokenize V rest).2)) := by
  refine ⟨by unfold tokenize; rw [scanText.eq_1], ?_, ?_, ?_⟩
  · intro c rest h1 h2 h3 h4
    unfold tokenize
    exact scanText_cons_skip h1 h2 h3 h4 rest [] []
  · intro text ts ids
    exact scanText_frame V text.length text (Nat.le_refl _) ts ids
  · intro word rest hne hspan
    cases word with
    | nil => exact absurd rfl hne
    | cons c cs =>
      have hc : spanPred c = true := hspan c (List.mem_cons_self c cs)
      obtain ⟨hw1, hw2, hw3⟩ := spanPred_ne_ws hc
      obtain ⟨htake, hdrop⟩ := span_take_drop (c :: cs) ' ' rest hspan (by decide)
      rw [tokenize]
      rw [List.cons_append]
      rw [scanText_cons_span hw1 hw2 hw3 hc]
      simp only []
      rw [← List.cons_append, htake, hdrop]
      rw [scanText_cons_space]
      rw [scanText_frame V rest.length rest (Nat.le_refl _)]
      rw [processSpan_frame V (c :: cs) [] []]
      simp

/-- C8.  Every emission path appends one token text and one id in
lockstep: starting from accumulators of equal length, the whitespace
specials, the case-split markers, roots, suffixes, BPE fragments and
`<unknown>` all preserve equality of the two lists' lengths, so the
returned record holds two parallel sequences of equal length for every
input. -/
theorem claim_C8_parallel (V : Vocab) :
    (∀ text, (tokenize V text).1.length = (tokenize V text).2.length) ∧
    (∀ text ts ids, ts.length = ids.length →
      (scanText V text ts ids).1.length = (scanText V text ts ids).2.length) ∧
    (∀ word ts ids, ts.length = ids.length →
      (processSpan V word ts ids).1.length = (processSpan V word ts ids).2.length) ∧
    (∀ word ts ids, ts.length = ids.length →
      (process_word V word ts ids).1.length = (process_word V word ts ids).2.length) ∧
    (∀ rem ts ids, ts.length = ids.length →
      (process_remainder V rem ts ids).1.length = (process_remainder V rem ts ids).2.length) ∧
    (∀ w ts ids, ts.length = ids.length →
      ((process_bpe V w ts ids).1.1).length = ((process_bpe V w ts ids).1.2).length) := by
  refine ⟨?_, ?_, ?_, ?_, ?_, ?_⟩
  · intro text
    exact scanText_len V text.length text (Nat.le_refl _) [] [] rfl
  · intro text ts ids h
    exact scanText_len V text.length text (Nat.le_refl _) ts ids h
  · intro word ts ids h
    exact processSpan_len V word ts ids h
  · intro word ts ids h
    exact process_word_len V word ts ids h
  · intro rem ts ids h
    exact process_remainder_len V rem.length rem (Nat.le_refl _) ts ids h
  · intro w ts ids h
    exact bpe_loop_len V.bpe w.length w (Nat.le_refl _) ts ids false h

/-- C10.  Tokenization is deterministic and stateless: the output is a
function of the table contents and the input text alone — two
vocabularies whose tables answer every lookup identically tokenize every
text identically — and a run started from arbitrary already-accumulated
lists equals those lists with the run's own output appended, so no call
depends on prior calls or on shared mutable state. -/
theorem claim_C10_deterministic :
    (∀ (V W : Vocab) (text : List Char),
      (∀ k, lookupT V.roots k = lookupT W.roots k) →
      (∀ k, lookupT V.suffixes k = lookupT W.suffixes k) →
      (∀ k, lookupT V.bpe k = lookupT W.bpe k) →
      tokenize V text = tokenize W text) ∧
    (∀ (V : Vocab) (text : List Char) (ts : List (List Char)) (ids : List Nat),
      scanText V text ts ids =
        (ts ++ (tokenize V text).1, ids ++ (tokenize V text).2)) := by
  constructor
  · intro V W text hr hs hb
    exact tokenize_congr ⟨hr, hs, hb⟩ text
  · intro V text ts ids
    exact scanText_frame V text.length text (Nat.le_refl _) ts ids

/-- Vocabulary for the C4 counterexample: only the BPE table is populated,
with a fragment that contains an upper-case Turkish letter. -/
def Vc4 : Vocab :=
  { roots := [], suffixes := [], bpe := [("aÇ".toList, 7)] }

/-- C4 fails as stated: on input `"aÇ"` the character `'Ç'` is upper case
(Python `isupper`), yet the case split (which looks only at ASCII `A`-`Z`)
leaves the span whole, so the emitted token `"aÇ"` retains the upper-case
letter un-lowered and no `<uppercase>` token is emitted anywhere. -/
theorem claim_C4_counterexample :
    pyIsUpper 'Ç' = true ∧
    ("aÇ".toList).any pyIsUpper = true ∧
    splitUpper "aÇ".toList = ["aÇ".toList] ∧
    tokenize Vc4 "aÇ".toList = (["aÇ".toList], [7]) ∧
    (∃ t ∈ (tokenize Vc4 "aÇ".toList).1, ∃ d ∈ t, pyIsUpper d = true) ∧
    UPPERCASE ∉ (tokenize Vc4 "aÇ".toList).1 := by
  rw [← tokenizeF_eq, ← splitUpperF_eq]
  decide

/-- C4 (amended).  For spans whose upper-case characters are all ASCII
`A`-`Z`, the uppercase invariant holds: the span splits exactly at the
upper-case letters (pieces concatenate back to the span and only piece
heads are upper case), each upper-case-initial piece contributes an
`<uppercase>` marker immediately followed by the tokens of the
lower-cased piece, word emissions are never empty (so a token always
follows the marker), and every token emitted for such a piece is free of
upper-case characters. -/
theorem claim_C4_amended (V : Vocab) (word : List Char)
    (hupper : word.any pyIsUpper = true)
    (hascii : ∀ c ∈ word, pyIsUpper c = true → isAsciiUpper c = true) :
    (splitUpper word).flatten = word ∧
    (∀ p ∈ splitUpper word,
      (∀ d ∈ p, isAsciiUpper d = false) ∨
        ∃ c cs, p = c :: cs ∧ isAsciiUpper c = true ∧
          ∀ d ∈ cs, isAsciiUpper d = false) ∧
    (∀ ts ids, processSpan V word ts ids = processParts V (splitUpper word) ts ids) ∧
    (∀ (c : Char) (cs : List Char) (ps : List (List Char)), pyIsUpper c = true →
      partsEmit V ((c :: cs) :: ps) =
        ((UPPERCASE :: (wordEmit V ((c :: cs).map pyLower)).1) ++ (partsEmit V ps).1,
         (0 :: (wordEmit V ((c :: cs).map pyLower)).2) ++ (partsEmit V ps).2)) ∧
    (∀ w2, (wordEmit V w2).1 ≠ []) ∧
    (∀ p ∈ splitUpper word, ∀ (c : Char) (cs : List Char), p = c :: cs →
      pyIsUpper c = true →
      ∀ t ∈ (wordEmit V (p.map pyLower)).1, ∀ d ∈ t, pyIsUpper d = false) := by
  refine ⟨splitUpper_flatten word, splitUpper_pieces word, ?_, ?_, ?_, ?_⟩
  · intro ts ids
    unfold processSpan
    rw [if_pos hupper]
  · intro c cs ps hu
    exact partsEmit_cons_upper V cs ps hu
  · intro w2
    exact wordEmit_ne_nil V w2
  · intro p hp c cs hpeq hu t ht d hd
    have hsub : ∀ x ∈ p, x ∈ word := by
      intro x hx
      have hmem : x ∈ (splitUpper word).flatten := List.mem_flatten_of_mem hp hx
      rwa [splitUpper_flatten] at hmem
    have hPlower : ∀ x ∈ p.map pyLower, pyIsUpper x = false := by
      intro x hx
      obtain ⟨y, hy, rfl⟩ := List.mem_map.mp hx
      by_cases hyu : pyIsUpper y = true
      · exact pyLower_ascii_not_upper (hascii y (hsub y hy) hyu)
      · have hyf : pyIsUpper y = false := by
          cases hcase : pyIsUpper y
          · rfl
          · exact absurd hcase hyu
        rw [pyLower_eq_self hyf]
        exact hyf
    have hres := wordEmit_chars V (p.map pyLower) (fun x => pyIsUpper x = false)
      hPlower t ht
    rcases hres with hres | hres
    · subst hres
      have hU : ∀ x ∈ UNKNOWN, pyIsUpper x = false := by decide
      exact hU d hd
    · exact hres d hd

/-- Vocabulary for the C5 counterexample: the whole word `"abc"` is in no
table, but its prefix `"ab"` is a root. -/
def Vc5 : Vocab :=
  { roots := [("ab".toList, 10)], suffixes := [], bpe := [] }

/-- C5 fails as stated: `"abc"` contains no upper-case letter and is
absent from all three tables, yet tokenizing it alone yields two tokens
(`"ab"` from the root table and `<unknown>` for the leftover `"c"`),
not a single `<unknown>`, because prefix matches fire even when the whole
word is not a key. -/
theorem claim_C5_counterexample :
    lookupT Vc5.roots "abc".toList = none ∧
    lookupT Vc5.suffixes "abc".toList = none ∧
    lookupT Vc5.bpe "abc".toList = none ∧
    ("abc".toList).all (fun c => !(pyIsUpper c)) = true ∧
    tokenize Vc5 "abc".toList = (["ab".toList, UNKNOWN], [10, 4]) ∧
    (tokenize Vc5 "abc".toList).1 ≠ [UNKNOWN] := by
  rw [← tokenizeF_eq]
  decide

/-- C5 (amended).  For any non-empty word of scanner-class characters
containing no upper-case letter, if no prefix of length at least 2 is a
root key and no non-empty substring is a BPE key (which in particular
holds when the word is absent from all three tables and so are all its
fragments), tokenizing the word alone produces exactly one token,
`<unknown>` with id 4. -/
theorem claim_C5_amended (V : Vocab) (word : List Char) (hne : word ≠ [])
    (hspan : ∀ c ∈ word, spanPred c = true)
    (hupper : ∀ c ∈ word, pyIsUpper c = false)
    (hroot : ∀ j, 2 ≤ j → j ≤ word.length → lookupT V.roots (word.take j) = none)
    (hbpe : ∀ i L, 1 ≤ L → lookupT V.bpe ((word.drop i).take L) = none) :
    tokenize V word = ([UNKNOWN], [4]) := by
  cases word with
  | nil => exact absurd rfl hne
  | cons c cs =>
    have hc : spanPred c = true := hspan c (List.mem_cons_self c cs)
    obtain ⟨hw1, hw2, hw3⟩ := spanPred_ne_ws hc
    unfold tokenize
    rw [scanText_cons_span hw1 hw2 hw3 hc]
    simp only []
    have htake : (c :: cs).takeWhile spanPred = c :: cs :=
      List.takeWhile_eq_self_iff.mpr (by intro x hx; simp [hspan x hx])
    have hdrop : (c :: cs).dropWhile spanPred = [] :=
      List.dropWhile_eq_nil_iff.mpr (by intro x hx; simp [hspan x hx])
    rw [htake, hdrop, scanText.eq_1]
    have hanyf : (c :: cs).any pyIsUpper = false := by
      rw [List.any_eq_false]
      intro x hx
      simp [hupper x hx]
    unfold processSpan
    rw [if_neg (by simp [hanyf])]
    have hmr : match_root V.roots (c :: cs) = none := by
      unfold match_root
      have hfh : firstHit V.roots (c :: cs) 2 (c :: cs).length = none :=
        (firstHit_none (by omega)).mpr (fun j hj1 hj2 => hroot j hj1 hj2)
      rw [hfh]
    have hwb := wordEmit_bpe hmr
    have hbe : bpeEmit V (c :: cs) = (([], []), false) :=
      bpeEmit_all_none V (c :: cs).length (c :: cs) (Nat.le_refl _) hbpe
    rw [process_word_frame V (c :: cs) [] []]
    rw [hwb, hbe]
    simp

/-- Vocabulary for the C9 end-to-end instance: only the BPE table is
populated, with a fragment containing a non-ASCII upper-case letter in a
non-initial position. -/
def V9 : Vocab :=
  { roots := [], suffixes := [], bpe := [("aİb".toList, 9)] }

/-- C9.  Case splitting only occurs at ASCII `A`-`Z`: in every split,
pieces concatenate back to the span and no character after a piece's head
is ASCII upper case; a non-ASCII upper-case letter such as `'İ'` in
non-initial position does not start a new piece; a piece whose first
character is not upper case is passed to matching as-is — no
`<uppercase>` marker and no lower-casing — even if upper-case characters
occur inside it, as the end-to-end run on `"aİb"` shows. -/
theorem claim_C9_ascii_split :
    (∀ (word : List Char), (splitUpper word).flatten = word ∧
      ∀ p ∈ splitUpper word, ∀ d ∈ p.drop 1, isAsciiUpper d = false) ∧
    (pyIsUpper 'İ' = true ∧ isAsciiUpper 'İ' = false ∧
      splitUpper "aİb".toList = ["aİb".toList]) ∧
    (∀ (V : Vocab) (c : Char) (cs : List Char) (ps : List (List Char)),
      pyIsUpper c = false →
      partsEmit V ((c :: cs) :: ps) =
        ((wordEmit V (c :: cs)).1 ++ (partsEmit V ps).1,
         (wordEmit V (c :: cs)).2 ++ (partsEmit V ps).2)) ∧
    (tokenize V9 "aİb".toList = (["aİb".toList], [9]) ∧
      (∃ d ∈ "aİb".toList, pyIsUpper d = true) ∧
      UPPERCASE ∉ (tokenize V9 "aİb".toList).1) := by
  refine ⟨?_, ?_, ?_, ?_⟩
  · intro word
    refine ⟨splitUpper_flatten word, ?_⟩
    intro p hp d hd
    rcases splitUpper_pieces word p hp with h | ⟨c, cs, hpeq, hc, hcs⟩
    · exact h d (List.drop_subset 1 p hd)
    · subst hpeq
      simp only [List.drop_one, List.tail_cons] at hd
      exact hcs d hd
  · rw [← splitUpperF_eq]
    decide
  · intro V c cs ps hu
    exact partsEmit_cons_notupper V cs ps hu
  · rw [← tokenizeF_eq]
    decide

/-!
### Witnesses
-/

/-- Root table with two competing prefixes of the same word. -/
def Rw : Table := [("kitab".toList, 385), ("kita".toList, 99)]

/-- Witness for C2 at the word `"kitabı"`: the longer root `"kitab"` wins
over the shorter key `"kita"`. -/
theorem claim_C2_match_root_witness :
    2 ≤ ("kitab".toList).length ∧
    "kitab".toList = ("kitabı".toList).take ("kitab".toList).length ∧
    lookupT Rw ("kitab".toList) = some 385 ∧
    "ı".toList = ("kitabı".toList).drop ("kitab".toList).length ∧
    (∀ j, ("kitab".toList).length < j → j ≤ ("kitabı".toList).length →
      lookupT Rw (("kitabı".toList).take j) = none) :=
  (claim_C2_match_root Rw "kitabı".toList).1 "kitab".toList 385 "ı".toList (by decide)

/-- Witness for C1 at the remainder `"leri"`: the suffix `"ler"` matches
first and the cascade re-enters on `"i"`. -/
theorem claim_C1_cascade_witness :
    1 ≤ ("ler".toList).length ∧
    "ler".toList = ("leri".toList).take ("ler".toList).length ∧
    lookupT exVocab.suffixes ("ler".toList) = some 22268 ∧
    (∀ j, ("ler".toList).length < j → j ≤ ("leri".toList).length →
      lookupT exVocab.suffixes (("leri".toList).take j) = none) ∧
    remEmit exVocab "leri".toList =
      (if ("leri".toList).drop ("ler".toList).length = [] then (["ler".toList], [22268])
       else ("ler".toList :: (remEmit exVocab (("leri".toList).drop ("ler".toList).length)).1,
             22268 :: (remEmit exVocab (("leri".toList).drop ("ler".toList).length)).2)) :=
  (claim_C1_cascade exVocab "leri".toList (by decide)).1 "ler".toList 22268 (by decide)

/-- BPE table for the C3 witness. -/
def Vb3 : Vocab := { roots := [], suffixes := [], bpe := [("ab".toList, 1)] }

/-- Witness for C3 at the string `"abz"`: the fragment `"ab"` is the
longest table substring at position 0 and the encoder advances past it. -/
theorem claim_C3_bpe_witness :
    1 ≤ ("ab".toList).length ∧
    "ab".toList = ('a' :: "bz".toList).take ("ab".toList).length ∧
    lookupT Vb3.bpe ("ab".toList) = some 1 ∧
    (∀ j, ("ab".toList).length < j → j ≤ ('a' :: "bz".toList).length →
      lookupT Vb3.bpe (('a' :: "bz".toList).take j) = none) ∧
    bpeEmit Vb3 ('a' :: "bz".toList) =
      (("ab".toList :: (bpeEmit Vb3 (('a' :: "bz".toList).drop ("ab".toList).length)).1.1,
        1 :: (bpeEmit Vb3 (('a' :: "bz".toList).drop ("ab".toList).length)).1.2), true) :=
  (claim_C3_bpe Vb3).1 'a' "bz".toList "ab".toList 1 (by decide)

/-- Witness for C6 at the remainder `"leri"`. -/
theorem claim_C6_termination_witness :
    (remEmit exVocab "leri".toList).1.length ≤ ("leri".toList).length :=
  (claim_C6_termination exVocab).2.2 "leri".toList (by decide)

/-- Witness for C7: the unclassified character `'#'` is skipped silently. -/
theorem claim_C7_totality_witness :
    tokenize exVocab ('#' :: "a".toList) = tokenize exVocab "a".toList :=
  (claim_C7_totality exVocab).2.1 '#' "a".toList (by decide) (by decide) (by decide)
    (by decide)

/-- Witness for C8 at a run started from equal-length accumulators. -/
theorem claim_C8_parallel_witness :
    (scanText exVocab "ab".toList ["x".toList] [5]).1.length =
      (scanText exVocab "ab".toList ["x".toList] [5]).2.length :=
  (claim_C8_parallel exVocab).2.1 "ab".toList ["x".toList] [5] (by decide)

/-- Two vocabularies with identical lookup behaviour: the second carries a
duplicate (shadowed) key. -/
def Vd1 : Vocab := { roots := [("ab".toList, 1)], suffixes := [], bpe := [] }

/-- Duplicate-key variant of `Vd1`; every lookup answers the same. -/
def Vd2 : Vocab := { roots := [("ab".toList, 1), ("ab".toList, 2)], suffixes := [], bpe := [] }

/-- Witness for C10: the two table representations tokenize identically. -/
theorem claim_C10_deterministic_witness :
    tokenize Vd1 "abc".toList = tokenize Vd2 "abc".toList :=
  claim_C10_deterministic.1 Vd1 Vd2 "abc".toList
    (by
      intro k
      by_cases hk : k = ['a', 'b'] <;> simp [Vd1, Vd2, lookupT, hk])
    (fun k => rfl) (fun k => rfl)

/-- Witness for the amended C4 at the span `"Ab"` (all of whose upper-case
characters are ASCII). -/
theorem claim_C4_amended_witness :
    (splitUpper "Ab".toList).flatten = "Ab".toList :=
  (claim_C4_amended exVocab "Ab".toList (by decide) (by decide)).1

/-- The empty vocabulary. -/
def Vempty : Vocab := { roots := [], suffixes := [], bpe := [] }

/-- Witness for the amended C5: with empty tables, the word `"qq"` becomes
a single `<unknown>`. -/
theorem claim_C5_amended_witness :
    tokenize Vempty "qq".toList = ([UNKNOWN], [4]) :=
  claim_C5_amended Vempty "qq".toList (by decide) (by decide) (by decide)
    (fun j h1 h2 => rfl) (fun i L hL => rfl)

/-- Witness for C9: a piece with non-upper-case head is passed through
without marker or lower-casing. -/
theorem claim_C9_ascii_split_witness :
    partsEmit V9 [['b']] =
      ((wordEmit V9 ['b']).1 ++ (partsEmit V9 []).1,
       (wordEmit V9 ['b']).2 ++ (partsEmit V9 []).2) :=
  claim_C9_ascii_split.2.2.1 V9 'b' [] [] (by decide)

end TurkishTok
